import Mathlib

/-!
Verification of the callsite-merging core of
`ui/src/tracks/heap_profile_flamegraph/controller.ts`.

The TypeScript function `mergeCallsites(data, minSizeDisplayed)` walks a
flat list of callsite records once, coalescing small records of equal depth
and equal (redirect-resolved) parent hash into the first such record, using
a `Map<number, number>` from superseded hash to surviving hash.

The shallow embedding below translates each TypeScript declaration into a
Lean function.  JavaScript numbers that only ever hold integral values
(`hash`, `parentHash`, `depth`) and byte counts (`totalSize`,
`minSizeDisplayed`) are modelled as `Int`.  The JavaScript `Map` is
modelled as an association list with most-recent-first lookup, which gives
`Map.get` / `Map.has` / overwriting `Map.set` semantics.
-/

/-- A record of the flamegraph data, mirroring the `CallsiteInfo` interface
used by the controller: `hash`, `parentHash`, `depth`, `name`,
`totalSize`. -/
structure CallsiteInfo where
  hash : Int
  parentHash : Int
  depth : Int
  name : String
  totalSize : Int
deriving DecidableEq, Repr

/-- The `Map<number, number>` from merged (superseded) callsite hash to the
hash of its surviving representative.  Most-recent-first association list:
`set` prepends, `get` takes the first match, which is exactly the
observable get/has/set behaviour of a JavaScript `Map`. -/
abbrev MergedMap := List (Int × Int)

/-- `Map.get`: first binding for the key, scanning most recent first. -/
def mapGet : MergedMap → Int → Option Int
  | [], _ => none
  | (k, v) :: m, h => if k = h then some v else mapGet m h

/-- `Map.has`. -/
def mapHas (m : MergedMap) (k : Int) : Bool :=
  (mapGet m k).isSome

/-- `Map.set` (overwrite semantics realised by prepending, since `mapGet`
returns the most recent binding). -/
def mapSet (m : MergedMap) (k v : Int) : MergedMap :=
  (k, v) :: m

/-- `copyCallsite` from the source: a field-by-field copy of the record. -/
def copyCallsite (callsite : CallsiteInfo) : CallsiteInfo :=
  { hash := callsite.hash
    parentHash := callsite.parentHash
    depth := callsite.depth
    name := callsite.name
    totalSize := callsite.totalSize }

/-- Resolution of a raw hash through the redirect map: the map image if the
hash is a key, otherwise the hash itself. -/
def resolveHash (m : MergedMap) (p : Int) : Int :=
  match mapGet m p with
  | some v => v
  | none => p

/-- `getCallsitesParentHash` from the source: the callsite's `parentHash`
resolved through the redirect map. -/
def getCallsitesParentHash (callsite : CallsiteInfo) (m : MergedMap) : Int :=
  resolveHash m callsite.parentHash

/-- The inner `while` loop of `mergeCallsites`: scan forward from the
record after the current one, while the depth still equals the depth of the
current copy; fold every candidate with matching resolved parent hash and
`totalSize ≤ minSizeDisplayed` into the copy, recording the redirect. -/
def mergeScan (copied : CallsiteInfo) (m : MergedMap) (minSize : Int) :
    List CallsiteInfo → CallsiteInfo × MergedMap
  | [] => (copied, m)
  | next :: rest =>
    if copied.depth = next.depth then
      if copied.parentHash = getCallsitesParentHash next m ∧ next.totalSize ≤ minSize then
        mergeScan { copied with totalSize := copied.totalSize + next.totalSize }
          (mapSet m next.hash copied.hash) minSize rest
      else
        mergeScan copied m minSize rest
    else
      (copied, m)

/-- The outer `for` loop of `mergeCallsites`, threading the redirect map
and returning both the accumulated output and the final map.  A record
whose hash is already a key of the map is skipped; otherwise it is copied,
its parent hash is resolved, and if it is small the inner scan runs over
the remaining records.  (The source guards the scan with
`i + 1 < data.length`; when the remainder is empty the scan returns its
arguments unchanged, so the guard is redundant and omitted here — the
faithful index-level rendering `mergeCallsitesIdxAux` below keeps it.) -/
def mergeLoop (m : MergedMap) (minSize : Int) :
    List CallsiteInfo → List CallsiteInfo × MergedMap
  | [] => ([], m)
  | c :: rest =>
    if mapHas m c.hash then
      mergeLoop m minSize rest
    else
      let copied0 := copyCallsite c
      let copied := { copied0 with parentHash := getCallsitesParentHash copied0 m }
      if copied.totalSize ≤ minSize then
        let sm := mergeScan copied m minSize rest
        let out := mergeLoop sm.2 minSize rest
        (sm.1 :: out.1, out.2)
      else
        let out := mergeLoop m minSize rest
        (copied :: out.1, out.2)

/-- `mergeCallsites` from the source. -/
def mergeCallsites (data : List CallsiteInfo) (minSizeDisplayed : Int) :
    List CallsiteInfo :=
  (mergeLoop [] minSizeDisplayed data).1

/-- The state of the `mergedCallsites` redirect map after `mergeCallsites`
finishes. -/
def finalMergedMap (data : List CallsiteInfo) (minSizeDisplayed : Int) :
    MergedMap :=
  (mergeLoop [] minSizeDisplayed data).2

/-- The representative a record ends up as in the output: the final map
image of its hash if it was folded into a survivor, otherwise its own
hash. -/
def repOf (data : List CallsiteInfo) (minSize : Int) (c : CallsiteInfo) : Int :=
  resolveHash (finalMergedMap data minSize) c.hash

/-- A record's effective parent hash after the run: its literal
`parentHash` resolved through the final redirect map. -/
def effParent (data : List CallsiteInfo) (minSize : Int) (c : CallsiteInfo) : Int :=
  resolveHash (finalMergedMap data minSize) c.parentHash

/-- §3 sort precondition, depth part: depths are non-decreasing along the
input, so records of equal depth form contiguous runs. -/
def SortedByDepth (data : List CallsiteInfo) : Prop :=
  data.Pairwise (fun a b => a.depth ≤ b.depth)

/-- §3 precondition: hashes are unique per record. -/
def UniqueHashes (data : List CallsiteInfo) : Prop :=
  data.Pairwise (fun a b => a.hash ≠ b.hash)

/-- Well-formedness of parent references: a record's `parentHash` either
matches no record at all (root sentinel or dangling) or matches only
records of strictly smaller depth. -/
def ParentsShallower (data : List CallsiteInfo) : Prop :=
  ∀ x ∈ data, ∀ y ∈ data, y.hash = x.parentHash → y.depth < x.depth

/-- Sum of `totalSize` over a list of records. -/
def sumSizes (l : List CallsiteInfo) : Int :=
  (l.map CallsiteInfo.totalSize).sum

/-- Sum of `totalSize` over the records of `l` whose hash is not a key of
the redirect map `m`. -/
def sumUnmerged (m : MergedMap) (l : List CallsiteInfo) : Int :=
  sumSizes (l.filter (fun x => !(mapHas m x.hash)))

/-- The copy the outer loop builds for a record before the inner scan:
field-for-field copy with the parent hash resolved through the current
redirect map. -/
def copiedOf (c : CallsiteInfo) (m : MergedMap) : CallsiteInfo :=
  { copyCallsite c with parentHash := getCallsitesParentHash (copyCallsite c) m }

/-- Invariant of the outer loop relating the redirect map `m` to the not
yet processed suffix `rest`.  For every record `x` of `rest` already
marked as merged: everything before `x` in `rest` still lies in `x`'s
same-depth window (the loop head has not crossed the depth boundary of the
run in which `x` was merged); `x` is small; and every small record in the
window — before or after `x` — whose resolved parent hash matches `x`'s is
itself already marked (the representative's scan swept the whole
window). -/
def MergeInv (minSize : Int) (m : MergedMap) (rest : List CallsiteInfo) : Prop :=
  ∀ pre x suf, rest = pre ++ x :: suf → mapHas m x.hash = true →
    (∀ l ∈ pre, l.depth = x.depth) ∧
    x.totalSize ≤ minSize ∧
    (∀ j ∈ pre, j.totalSize ≤ minSize →
      resolveHash m j.parentHash = resolveHash m x.parentHash →
      mapHas m j.hash = true) ∧
    (∀ s1 y s2, suf = s1 ++ y :: s2 → (∀ l ∈ s1, l.depth = x.depth) →
      y.depth = x.depth → y.totalSize ≤ minSize →
      resolveHash m y.parentHash = resolveHash m x.parentHash →
      mapHas m y.hash = true)

/-- Marked records of the same depth whose parent hashes resolve equally
point to the same representative. -/
def SameClassSameRep (m : MergedMap) (rest : List CallsiteInfo) : Prop :=
  ∀ x ∈ rest, ∀ y ∈ rest, mapHas m x.hash = true → mapHas m y.hash = true →
    x.depth = y.depth →
    resolveHash m x.parentHash = resolveHash m y.parentHash →
    mapGet m x.hash = mapGet m y.hash

/-- Values of the redirect map are hashes of already-emitted
representatives, hence differ from every hash still to be processed. -/
def ValuesFresh (m : MergedMap) (rest : List CallsiteInfo) : Prop :=
  ∀ q ∈ m, ∀ x ∈ rest, q.2 ≠ x.hash

/-- Index-level rendering of the inner `while` loop, keeping the source's
control flow exactly: the candidate `data[j]` is fetched *after* `j++`
(possibly out of range, modelled as `none`), and the guard
`j < data.length` is evaluated before the fetched value's `depth` is
consulted.  Consulting an absent value — the only way the source could
fail — is rendered as the `none` result. -/
def mergeScanIdx (data : List CallsiteInfo) (minSize : Int)
    (copied : CallsiteInfo) (m : MergedMap) (j : Nat)
    (next : Option CallsiteInfo) : Option (CallsiteInfo × MergedMap) :=
  if _hj : j < data.length then
    match next with
    | none => none
    | some nc =>
      if copied.depth = nc.depth then
        if copied.parentHash = getCallsitesParentHash nc m ∧ nc.totalSize ≤ minSize then
          mergeScanIdx data minSize
            { copied with totalSize := copied.totalSize + nc.totalSize }
            (mapSet m nc.hash copied.hash) (j + 1) (data.get? (j + 1))
        else
          mergeScanIdx data minSize copied m (j + 1) (data.get? (j + 1))
      else
        some (copied, m)
  else
    some (copied, m)
termination_by data.length - j
decreasing_by
  all_goals omega

/-- Index-level rendering of the outer `for` loop, including the source's
`i + 1 < data.length` guard on entering the inner scan. -/
def mergeCallsitesIdxAux (data : List CallsiteInfo) (minSize : Int)
    (m : MergedMap) (i : Nat) : Option (List CallsiteInfo) :=
  if hi : i < data.length then
    let c := data.get ⟨i, hi⟩
    if mapHas m c.hash then
      mergeCallsitesIdxAux data minSize m (i + 1)
    else
      let copied0 := copyCallsite c
      let copied := { copied0 with parentHash := getCallsitesParentHash copied0 m }
      if copied.totalSize ≤ minSize ∧ i + 1 < data.length then
        match mergeScanIdx data minSize copied m (i + 1) (data.get? (i + 1)) with
        | none => none
        | some (copied1, m1) =>
          (mergeCallsitesIdxAux data minSize m1 (i + 1)).map (copied1 :: ·)
      else
        (mergeCallsitesIdxAux data minSize m (i + 1)).map (copied :: ·)
  else
    some []
termination_by data.length - i
decreasing_by
  all_goals omega

/-- Index-level `mergeCallsites`: `none` would mean the run consulted an
out-of-range record. -/
def mergeCallsitesIdx (data : List CallsiteInfo) (minSize : Int) :
    Option (List CallsiteInfo) :=
  mergeCallsitesIdxAux data minSize [] 0

/-- The `currentHeapProfileFlamegraph` selection consulted by
`HeapProfileFlameraphTrackController.run`. -/
structure FlamegraphSelection where
  kind : String
  id : Int
  upid : Int
  ts : Int
deriving DecidableEq, Repr

/-- The publish guard inside the `.then` callback of `run`, exactly as the
source writes it: `flamegraphData !== undefined && selection &&
selection.kind === selectedKind && selection.id === selectedId &&
selection.ts === selectedTs`, where `selection` is the *captured* constant
read at the start of `run` and `selectedKind`/`selectedId`/`selectedTs`
are values saved from that same captured constant. -/
def runPublishGuard (selection : FlamegraphSelection) (selectedKind : String)
    (selectedId selectedTs : Int) (flamegraphDataDefined : Bool) : Bool :=
  flamegraphDataDefined && (selection.kind == selectedKind)
    && (selection.id == selectedId) && (selection.ts == selectedTs)

/-- The guard as it is evaluated at fetch completion: `run` saves
`selectedKind := selection.kind`, `selectedId := selection.id`,
`selectedTs := selection.ts` from the captured `selection` before issuing
the fetch; the current selection at completion time is never re-read. -/
def runGuardAtCompletion (selection : FlamegraphSelection)
    (flamegraphDataDefined : Bool) : Bool :=
  let selectedId := selection.id
  let selectedKind := selection.kind
  let selectedTs := selection.ts
  runPublishGuard selection selectedKind selectedId selectedTs
    flamegraphDataDefined

/-! Concrete inputs used as test vectors below. -/

/-- Five same-depth records with unique hashes whose parent hashes refer
to records of the same depth (violating `ParentsShallower`): record `x`
(hash 9) is folded first into `a` and later, after `c` (hash 50) is folded
into `r` and the resolution of parent hash 50 changes, again into `b`. -/
def exampleSameDepthParents : List CallsiteInfo :=
  [⟨1, 50, 0, "a", 1⟩, ⟨7, 60, 0, "r", 1⟩, ⟨50, 60, 0, "c", 1⟩,
    ⟨2, 7, 0, "b", 1⟩, ⟨9, 50, 0, "x", 1⟩]

/-- Three root siblings of size 1 (spec Scenario 1). -/
def exampleSiblings : List CallsiteInfo :=
  [⟨1, -1, 0, "a", 1⟩, ⟨2, -1, 0, "b", 1⟩, ⟨3, -1, 0, "c", 1⟩]

/-- Root siblings of sizes 5, 1, 1 (spec Scenario 2). -/
def exampleSiblingsWithBig : List CallsiteInfo :=
  [⟨1, -1, 0, "big", 5⟩, ⟨2, -1, 0, "s1", 1⟩, ⟨3, -1, 0, "s2", 1⟩]

/-- A large and a small record sharing hash 1: the duplicate-hash record is
folded into `r`, which marks hash 1 as merged even though the first record
with that hash was already emitted. -/
def exampleDuplicateHashes : List CallsiteInfo :=
  [⟨1, -1, 0, "a", 50⟩, ⟨2, -1, 0, "r", 1⟩, ⟨1, -1, 0, "a2", 1⟩]

/-- Two small roots and their two children (spec Scenario 5): the depth-0
merge redirects parent hash 2 to 1, and the depth-1 children then merge
relative to the surviving representative. -/
def exampleTwoLevel : List CallsiteInfo :=
  [⟨1, -1, 0, "p1", 1⟩, ⟨2, -1, 0, "p2", 1⟩,
    ⟨3, 1, 1, "k1", 1⟩, ⟨4, 2, 1, "k2", 1⟩]

/-- Two small roots that merge, plus a large child of the superseded root:
the child is emitted with its parent hash redirected to the surviving
representative. -/
def exampleRedirectedChild : List CallsiteInfo :=
  [⟨1, -1, 0, "p1", 1⟩, ⟨2, -1, 0, "p2", 1⟩, ⟨3, 2, 1, "k", 50⟩]

instance : DecidablePred SortedByDepth := fun _ =>
  inferInstanceAs (Decidable (List.Pairwise _ _))

instance : DecidablePred UniqueHashes := fun _ =>
  inferInstanceAs (Decidable (List.Pairwise _ _))

instance : DecidablePred ParentsShallower := fun _ =>
  inferInstanceAs (Decidable (∀ x ∈ _, ∀ y ∈ _, _ = _ → _ < _))

/-! ### Basic lemmas about the map model -/

theorem mapGet_nil (p : Int) : mapGet [] p = none := rfl

theorem mapGet_cons (k v : Int) (m : MergedMap) (p : Int) :
    mapGet ((k, v) :: m) p = if k = p then some v else mapGet m p := rfl

theorem mapHas_iff {m : MergedMap} {k : Int} :
    mapHas m k = true ↔ ∃ v, mapGet m k = some v := by
  simp [mapHas, Option.isSome_iff_exists]

theorem mapHas_nil (k : Int) : mapHas [] k = false := rfl

theorem mapGet_append (m₁ m₂ : MergedMap) (p : Int) :
    mapGet (m₁ ++ m₂) p =
      match mapGet m₁ p with
      | some v => some v
      | none => mapGet m₂ p := by
  induction m₁ with
  | nil => simp [mapGet]
  | cons q m₁ ih =>
    obtain ⟨k, v⟩ := q
    by_cases h : k = p <;> simp [mapGet, h, ih]

theorem mapGet_append_of_not_key {m₁ m₂ : MergedMap} {p : Int}
    (h : ∀ q ∈ m₁, q.1 ≠ p) :
    mapGet (m₁ ++ m₂) p = mapGet m₂ p := by
  induction m₁ with
  | nil => rfl
  | cons q m₁ ih =>
    obtain ⟨k, v⟩ := q
    have hk : k ≠ p := h (k, v) (by simp)
    simp only [List.cons_append, mapGet, if_neg hk]
    exact ih (fun q hq => h q (by simp [hq]))

theorem mapGet_mem {m : MergedMap} {p v : Int} (h : mapGet m p = some v) :
    (p, v) ∈ m := by
  induction m with
  | nil => simp [mapGet] at h
  | cons q m ih =>
    obtain ⟨k, w⟩ := q
    by_cases hk : k = p
    · subst hk
      simp [mapGet] at h
      simp [h]
    · simp only [mapGet, if_neg hk] at h
      exact List.mem_cons_of_mem _ (ih h)

theorem resolveHash_eq_of_mapGet_eq {m₁ m₂ : MergedMap} {p : Int}
    (h : mapGet m₁ p = mapGet m₂ p) : resolveHash m₁ p = resolveHash m₂ p := by
  simp [resolveHash, h]

theorem mapHas_append {m₁ m₂ : MergedMap} {k : Int} :
    mapHas (m₁ ++ m₂) k = (mapHas m₁ k || mapHas m₂ k) := by
  rw [mapHas, mapHas, mapHas, mapGet_append]
  cases h : mapGet m₁ k <;> simp

theorem mapHas_of_mapGet_some {m : MergedMap} {p v : Int}
    (h : mapGet m p = some v) : mapHas m p = true := by
  simp [mapHas, h]

/-! ### Structure lemmas for `mergeScan` -/

theorem mergeScan_nil (copied : CallsiteInfo) (m : MergedMap) (minSize : Int) :
    mergeScan copied m minSize [] = (copied, m) := rfl

theorem mergeScan_cons (copied : CallsiteInfo) (m : MergedMap) (minSize : Int)
    (next : CallsiteInfo) (rest : List CallsiteInfo) :
    mergeScan copied m minSize (next :: rest) =
      if copied.depth = next.depth then
        if copied.parentHash = getCallsitesParentHash next m ∧ next.totalSize ≤ minSize then
          mergeScan { copied with totalSize := copied.totalSize + next.totalSize }
            (mapSet m next.hash copied.hash) minSize rest
        else
          mergeScan copied m minSize rest
      else
        (copied, m) := rfl

/-- The scan changes only `totalSize` on the copy. -/
theorem mergeScan_fields (copied : CallsiteInfo) (m : MergedMap) (minSize : Int)
    (suffix : List CallsiteInfo) :
    (mergeScan copied m minSize suffix).1.hash = copied.hash ∧
    (mergeScan copied m minSize suffix).1.parentHash = copied.parentHash ∧
    (mergeScan copied m minSize suffix).1.depth = copied.depth ∧
    (mergeScan copied m minSize suffix).1.name = copied.name := by
  induction suffix generalizing copied m with
  | nil => exact ⟨rfl, rfl, rfl, rfl⟩
  | cons next rest ih =>
    rw [mergeScan_cons]
    by_cases hd : copied.depth = next.depth
    · rw [if_pos hd]
      by_cases hc : copied.parentHash = getCallsitesParentHash next m ∧ next.totalSize ≤ minSize
      · rw [if_pos hc]; exact ih _ _
      · rw [if_neg hc]; exact ih _ _
    · rw [if_neg hd]; exact ⟨rfl, rfl, rfl, rfl⟩

/-- What one inner scan adds to the redirect map: a batch of bindings, all
with the copy's hash as value, each keyed by the hash of a candidate that
lies in the contiguous same-depth window after the copy, is small, and
whose parent hash resolved *at scan entry* equals the copy's resolved
parent hash (resolution is stable across the scan because the scan only
adds keys of same-depth records, while parent references only match
strictly shallower records). -/
theorem mergeScan_map_ext (copied : CallsiteInfo) (m : MergedMap)
    (minSize : Int) (suffix : List CallsiteInfo)
    (hsh : ∀ x ∈ suffix, ∀ y ∈ suffix, y.hash = x.parentHash → y.depth < x.depth) :
    ∃ ext, (mergeScan copied m minSize suffix).2 = ext ++ m ∧
      ∀ q ∈ ext, q.2 = copied.hash ∧
        ∃ pre x suf, suffix = pre ++ x :: suf ∧ x.hash = q.1 ∧
          x.depth = copied.depth ∧ x.totalSize ≤ minSize ∧
          resolveHash m x.parentHash = copied.parentHash ∧
          ∀ l ∈ pre, l.depth = copied.depth := by
  induction suffix generalizing copied m with
  | nil => exact ⟨[], rfl, by simp⟩
  | cons next rest ih =>
    rw [mergeScan_cons]
    by_cases hd : copied.depth = next.depth
    · rw [if_pos hd]
      by_cases hc : copied.parentHash = getCallsitesParentHash next m ∧
          next.totalSize ≤ minSize
      · rw [if_pos hc]
        have hshr : ∀ x ∈ rest, ∀ y ∈ rest, y.hash = x.parentHash → y.depth < x.depth :=
          fun x hx y hy => hsh x (by simp [hx]) y (by simp [hy])
        obtain ⟨ext, hext, hdesc⟩ := ih
          { copied with totalSize := copied.totalSize + next.totalSize }
          (mapSet m next.hash copied.hash) hshr
        refine ⟨ext ++ [(next.hash, copied.hash)], by simpa [mapSet] using hext, ?_⟩
        intro q hq
        rcases List.mem_append.mp hq with hq | hq
        · obtain ⟨hval, pre, x, suf, hdecomp, hxh, hxd, hxs, hxr, hwin⟩ := hdesc q hq
          refine ⟨hval, next :: pre, x, suf, by simp [hdecomp], hxh, hxd, hxs, ?_, ?_⟩
          · have hxmem : x ∈ next :: rest := by
              simp [hdecomp]
            have hxd' : x.depth = copied.depth := hxd
            have hne : next.hash ≠ x.parentHash := by
              intro heq
              have hlt := hsh x hxmem next (by simp) heq
              rw [hxd', hd] at hlt
              omega
            have : mapGet (mapSet m next.hash copied.hash) x.parentHash =
                mapGet m x.parentHash := by
              simp [mapSet, mapGet, if_neg hne]
            rw [← hxr]
            exact (resolveHash_eq_of_mapGet_eq this).symm
          · intro l hl
            rcases List.mem_cons.mp hl with hl | hl
            · rw [hl]; exact hd.symm
            · exact hwin l hl
        · have hq' : q = (next.hash, copied.hash) := by simpa using hq
          subst hq'
          exact ⟨rfl, [], next, rest, rfl, rfl, hd.symm, hc.2, hc.1.symm, by simp⟩
      · rw [if_neg hc]
        have hshr : ∀ x ∈ rest, ∀ y ∈ rest, y.hash = x.parentHash → y.depth < x.depth :=
          fun x hx y hy => hsh x (by simp [hx]) y (by simp [hy])
        obtain ⟨ext, hext, hdesc⟩ := ih copied m hshr
        refine ⟨ext, hext, ?_⟩
        intro q hq
        obtain ⟨hval, pre, x, suf, hdecomp, hxh, hxd, hxs, hxr, hwin⟩ := hdesc q hq
        exact ⟨hval, next :: pre, x, suf, by simp [hdecomp], hxh, hxd, hxs, hxr, by
          intro l hl
          rcases List.mem_cons.mp hl with hl | hl
          · rw [hl]; exact hd.symm
          · exact hwin l hl⟩
    · rw [if_neg hd]
      exact ⟨[], rfl, by simp⟩

/-- Keys added by a scan are hashes of records of the scanned suffix, and
every added value is the copy's hash (no well-formedness needed). -/
theorem mergeScan_keys_sub (copied : CallsiteInfo) (m : MergedMap)
    (minSize : Int) (suffix : List CallsiteInfo) :
    ∃ ext, (mergeScan copied m minSize suffix).2 = ext ++ m ∧
      ∀ q ∈ ext, (∃ x ∈ suffix, q.1 = x.hash) ∧ q.2 = copied.hash := by
  induction suffix generalizing copied m with
  | nil => exact ⟨[], rfl, by simp⟩
  | cons next rest ih =>
    rw [mergeScan_cons]
    by_cases hd : copied.depth = next.depth
    · rw [if_pos hd]
      by_cases hc : copied.parentHash = getCallsitesParentHash next m ∧
          next.totalSize ≤ minSize
      · rw [if_pos hc]
        obtain ⟨ext, hext, hdesc⟩ := ih
          { copied with totalSize := copied.totalSize + next.totalSize }
          (mapSet m next.hash copied.hash)
        refine ⟨ext ++ [(next.hash, copied.hash)], by simpa [mapSet] using hext, ?_⟩
        intro q hq
        rcases List.mem_append.mp hq with hq | hq
        · obtain ⟨⟨x, hx, hxh⟩, hval⟩ := hdesc q hq
          exact ⟨⟨x, by simp [hx], hxh⟩, hval⟩
        · have hq' : q = (next.hash, copied.hash) := by simpa using hq
          subst hq'
          exact ⟨⟨next, by simp, rfl⟩, rfl⟩
      · rw [if_neg hc]
        obtain ⟨ext, hext, hdesc⟩ := ih copied m
        refine ⟨ext, hext, ?_⟩
        intro q hq
        obtain ⟨⟨x, hx, hxh⟩, hval⟩ := hdesc q hq
        exact ⟨⟨x, by simp [hx], hxh⟩, hval⟩
    · rw [if_neg hd]
      exact ⟨[], rfl, by simp⟩

/-- A key present before a scan is still present after it. -/
theorem mergeScan_has_mono (copied : CallsiteInfo) (m : MergedMap)
    (minSize : Int) (suffix : List CallsiteInfo) {h : Int}
    (hm : mapHas m h = true) :
    mapHas (mergeScan copied m minSize suffix).2 h = true := by
  obtain ⟨ext, hext, -⟩ := mergeScan_keys_sub copied m minSize suffix
  rw [hext, mapHas_append, hm]
  simp

/-- A scan leaves `mapGet` unchanged at any key that is not the hash of a
record of the scanned suffix. -/
theorem mergeScan_mapGet_stable_of_not_hash (copied : CallsiteInfo)
    (m : MergedMap) (minSize : Int) (suffix : List CallsiteInfo) {p : Int}
    (hp : ∀ x ∈ suffix, x.hash ≠ p) :
    mapGet (mergeScan copied m minSize suffix).2 p = mapGet m p := by
  obtain ⟨ext, hext, hdesc⟩ := mergeScan_keys_sub copied m minSize suffix
  rw [hext]
  refine mapGet_append_of_not_key ?_
  intro q hq heq
  obtain ⟨⟨x, hx, hxh⟩, -⟩ := hdesc q hq
  exact hp x hx (hxh ▸ heq)

/-- A scan leaves `mapGet` unchanged at any key whose matching records do
not have the copy's depth (parent references of same-depth candidates in
particular, under `ParentsShallower`). -/
theorem mergeScan_mapGet_stable (copied : CallsiteInfo) (m : MergedMap)
    (minSize : Int) (suffix : List CallsiteInfo) {p : Int}
    (hsh : ∀ x ∈ suffix, ∀ y ∈ suffix, y.hash = x.parentHash → y.depth < x.depth)
    (hp : ∀ y ∈ suffix, y.hash = p → y.depth ≠ copied.depth) :
    mapGet (mergeScan copied m minSize suffix).2 p = mapGet m p := by
  obtain ⟨ext, hext, hdesc⟩ := mergeScan_map_ext copied m minSize suffix hsh
  rw [hext]
  refine mapGet_append_of_not_key ?_
  intro q hq heq
  obtain ⟨-, pre, x, suf, hdecomp, hxh, hxd, -, -, -⟩ := hdesc q hq
  exact hp x (by simp [hdecomp]) (by rw [hxh, heq]) hxd

/-- Completeness of the scan: a small candidate in the contiguous
same-depth window with matching (scan-entry-resolved) parent hash ends up
as a key of the map the scan produces. -/
theorem mergeScan_marks_window (copied : CallsiteInfo) (m : MergedMap)
    (minSize : Int) (suffix : List CallsiteInfo)
    (hsh : ∀ x ∈ suffix, ∀ y ∈ suffix, y.hash = x.parentHash → y.depth < x.depth)
    (pre : List CallsiteInfo) (j : CallsiteInfo) (suf : List CallsiteInfo)
    (hdecomp : suffix = pre ++ j :: suf)
    (hwin : ∀ l ∈ pre, l.depth = copied.depth)
    (hjd : j.depth = copied.depth) (hjs : j.totalSize ≤ minSize)
    (hjr : resolveHash m j.parentHash = copied.parentHash) :
    mapHas (mergeScan copied m minSize suffix).2 j.hash = true := by
  induction suffix generalizing copied m pre with
  | nil => exact absurd hdecomp (by simp)
  | cons next rest ih =>
    rw [mergeScan_cons]
    cases pre with
    | nil =>
      simp only [List.nil_append, List.cons.injEq] at hdecomp
      obtain ⟨hnj, hrest⟩ := hdecomp
      subst hnj
      rw [if_pos hjd.symm, if_pos ⟨hjr.symm, hjs⟩]
      subst hrest
      exact mergeScan_has_mono _ _ _ _ (by simp [mapSet, mapHas, mapGet])
    | cons a pre =>
      simp only [List.cons_append, List.cons.injEq] at hdecomp
      obtain ⟨hna, hrest⟩ := hdecomp
      subst hna
      have had : next.depth = copied.depth := hwin next (by simp)
      rw [if_pos had.symm]
      have hshr : ∀ x ∈ rest, ∀ y ∈ rest, y.hash = x.parentHash → y.depth < x.depth :=
        fun x hx y hy => hsh x (by simp [hx]) y (by simp [hy])
      have hane : next.hash ≠ j.parentHash := by
        intro heq
        have hlt := hsh j (by simp [hrest]) next (by simp) heq
        rw [hjd, had] at hlt
        omega
      by_cases hc : copied.parentHash = getCallsitesParentHash next m ∧
          next.totalSize ≤ minSize
      · rw [if_pos hc]
        refine ih _ _ hshr pre hrest (fun l hl => hwin l (by simp [hl])) hjd ?_
        have : mapGet (mapSet m next.hash copied.hash) j.parentHash =
            mapGet m j.parentHash := by
          simp [mapSet, mapGet, if_neg hane]
        rw [resolveHash_eq_of_mapGet_eq this]
        exact hjr
      · rw [if_neg hc]
        exact ih _ _ hshr pre hrest (fun l hl => hwin l (by simp [hl])) hjd hjr

/-- Value-level completeness: if additionally hashes are unique in the
suffix and the candidate was not already a key, the binding the scan adds
for it carries the copy's hash as value, and survives to the end of the
scan. -/
theorem mergeScan_marks_window_get (copied : CallsiteInfo) (m : MergedMap)
    (minSize : Int) (suffix : List CallsiteInfo)
    (hsh : ∀ x ∈ suffix, ∀ y ∈ suffix, y.hash = x.parentHash → y.depth < x.depth)
    (huq : suffix.Pairwise (fun a b => a.hash ≠ b.hash))
    (pre : List CallsiteInfo) (j : CallsiteInfo) (suf : List CallsiteInfo)
    (hdecomp : suffix = pre ++ j :: suf)
    (hwin : ∀ l ∈ pre, l.depth = copied.depth)
    (hjd : j.depth = copied.depth) (hjs : j.totalSize ≤ minSize)
    (hjr : resolveHash m j.parentHash = copied.parentHash) :
    mapGet (mergeScan copied m minSize suffix).2 j.hash = some copied.hash := by
  induction suffix generalizing copied m pre with
  | nil => exact absurd hdecomp (by simp)
  | cons next rest ih =>
    rw [mergeScan_cons]
    cases pre with
    | nil =>
      simp only [List.nil_append, List.cons.injEq] at hdecomp
      obtain ⟨hnj, hrest⟩ := hdecomp
      subst hnj
      rw [if_pos hjd.symm, if_pos ⟨hjr.symm, hjs⟩]
      subst hrest
      have hnot : ∀ x ∈ rest, x.hash ≠ next.hash := by
        intro x hx
        exact fun heq => (List.pairwise_cons.mp huq).1 x hx heq.symm
      rw [mergeScan_mapGet_stable_of_not_hash _ _ _ _ hnot]
      simp [mapSet, mapGet]
    | cons a pre =>
      simp only [List.cons_append, List.cons.injEq] at hdecomp
      obtain ⟨hna, hrest⟩ := hdecomp
      subst hna
      have had : next.depth = copied.depth := hwin next (by simp)
      rw [if_pos had.symm]
      have hshr : ∀ x ∈ rest, ∀ y ∈ rest, y.hash = x.parentHash → y.depth < x.depth :=
        fun x hx y hy => hsh x (by simp [hx]) y (by simp [hy])
      have huqr : rest.Pairwise (fun a b => a.hash ≠ b.hash) :=
        (List.pairwise_cons.mp huq).2
      have hane : next.hash ≠ j.parentHash := by
        intro heq
        have hlt := hsh j (by simp [hrest]) next (by simp) heq
        rw [hjd, had] at hlt
        omega
      by_cases hc : copied.parentHash = getCallsitesParentHash next m ∧
          next.totalSize ≤ minSize
      · rw [if_pos hc]
        refine ih _ _ hshr huqr pre hrest (fun l hl => hwin l (by simp [hl])) hjd ?_
        have : mapGet (mapSet m next.hash copied.hash) j.parentHash =
            mapGet m j.parentHash := by
          simp [mapSet, mapGet, if_neg hane]
        rw [resolveHash_eq_of_mapGet_eq this]
        exact hjr
      · rw [if_neg hc]
        exact ih _ _ hshr huqr pre hrest (fun l hl => hwin l (by simp [hl])) hjd hjr

theorem sumSizes_nil : sumSizes [] = 0 := rfl

theorem sumSizes_cons (x : CallsiteInfo) (l : List CallsiteInfo) :
    sumSizes (x :: l) = x.totalSize + sumSizes l := by
  simp [sumSizes]

theorem sumUnmerged_nil (m : MergedMap) : sumUnmerged m [] = 0 := rfl

theorem sumUnmerged_cons (m : MergedMap) (x : CallsiteInfo)
    (l : List CallsiteInfo) :
    sumUnmerged m (x :: l) =
      (if mapHas m x.hash then 0 else x.totalSize) + sumUnmerged m l := by
  by_cases h : mapHas m x.hash
  · simp [sumUnmerged, List.filter, h]
  · simp only [sumUnmerged, List.filter, Bool.not_eq_true] at h ⊢
    rw [h]
    simp [sumSizes_cons, h]

theorem sumUnmerged_congr {m₁ m₂ : MergedMap} {l : List CallsiteInfo}
    (h : ∀ x ∈ l, mapHas m₁ x.hash = mapHas m₂ x.hash) :
    sumUnmerged m₁ l = sumUnmerged m₂ l := by
  induction l with
  | nil => rfl
  | cons x l ih =>
    rw [sumUnmerged_cons, sumUnmerged_cons, h x (by simp),
      ih (fun x hx => h x (by simp [hx]))]

theorem mapGet_eq_none_of_no_key {m : MergedMap} {p : Int}
    (h : ∀ q ∈ m, q.1 ≠ p) : mapGet m p = none := by
  induction m with
  | nil => rfl
  | cons q m ih =>
    obtain ⟨k, v⟩ := q
    have hk : k ≠ p := h (k, v) (by simp)
    simp only [mapGet, if_neg hk]
    exact ih (fun q hq => h q (by simp [hq]))

/-- Conservation across one inner scan: the size the copy gains is exactly
the total size of the records the scan newly marks as merged.  Requires
unique hashes, shallow parent references, the invariant that no record of
the suffix that is already marked can match the copy's resolved parent
hash, and that the copy's resolved parent hash differs from its own
hash. -/
theorem mergeScan_sum (copied : CallsiteInfo) (m : MergedMap) (minSize : Int)
    (suffix : List CallsiteInfo)
    (huq : suffix.Pairwise (fun a b => a.hash ≠ b.hash))
    (hsh : ∀ x ∈ suffix, ∀ y ∈ suffix, y.hash = x.parentHash → y.depth < x.depth)
    (hnd : ∀ x ∈ suffix, mapHas m x.hash = true →
      resolveHash m x.parentHash ≠ copied.parentHash)
    (hcp : copied.parentHash ≠ copied.hash) :
    (mergeScan copied m minSize suffix).1.totalSize +
      sumUnmerged (mergeScan copied m minSize suffix).2 suffix =
    copied.totalSize + sumUnmerged m suffix := by
  induction suffix generalizing copied m with
  | nil => simp [mergeScan_nil]
  | cons next rest ih =>
    rw [mergeScan_cons]
    by_cases hd : copied.depth = next.depth
    · rw [if_pos hd]
      have huqr : rest.Pairwise (fun a b => a.hash ≠ b.hash) :=
        (List.pairwise_cons.mp huq).2
      have hnextr : ∀ b ∈ rest, next.hash ≠ b.hash := (List.pairwise_cons.mp huq).1
      have hshr : ∀ x ∈ rest, ∀ y ∈ rest, y.hash = x.parentHash → y.depth < x.depth :=
        fun x hx y hy => hsh x (by simp [hx]) y (by simp [hy])
      by_cases hc : copied.parentHash = getCallsitesParentHash next m ∧
          next.totalSize ≤ minSize
      · rw [if_pos hc]
        -- `next` cannot be already merged, by `hnd`.
        have hnextfresh : mapHas m next.hash = false := by
          by_contra hcon
          have : mapHas m next.hash = true := by
            cases hhb : mapHas m next.hash
            · exact absurd hhb hcon
            · rfl
          exact hnd next (by simp) this hc.1.symm
        -- invariant for the recursive call
        have hnd2 : ∀ x ∈ rest, mapHas (mapSet m next.hash copied.hash) x.hash = true →
            resolveHash (mapSet m next.hash copied.hash) x.parentHash ≠
              ({ copied with totalSize := copied.totalSize + next.totalSize } :
                CallsiteInfo).parentHash := by
          intro x hx hhas
          have hxne : next.hash ≠ x.hash := hnextr x hx
          have hhasm : mapHas m x.hash = true := by
            simpa [mapSet, mapHas, mapGet, if_neg hxne] using hhas
          by_cases hpe : next.hash = x.parentHash
          · have : resolveHash (mapSet m next.hash copied.hash) x.parentHash =
                copied.hash := by
              simp [mapSet, resolveHash, mapGet, if_pos hpe]
            rw [this]
            exact fun heq => hcp heq.symm
          · have : mapGet (mapSet m next.hash copied.hash) x.parentHash =
                mapGet m x.parentHash := by
              simp [mapSet, mapGet, if_neg hpe]
            rw [resolveHash_eq_of_mapGet_eq this]
            exact hnd x (by simp [hx]) hhasm
        have hrec := ih { copied with totalSize := copied.totalSize + next.totalSize }
          (mapSet m next.hash copied.hash) huqr hshr hnd2 hcp
        -- rewrite the two `sumUnmerged _ (next :: rest)` occurrences
        have hfin : mapHas (mergeScan
            { copied with totalSize := copied.totalSize + next.totalSize }
            (mapSet m next.hash copied.hash) minSize rest).2 next.hash = true := by
          exact mergeScan_has_mono _ _ _ _ (by simp [mapSet, mapHas, mapGet])
        have hrest_eq : sumUnmerged (mapSet m next.hash copied.hash) rest =
            sumUnmerged m rest := by
          refine sumUnmerged_congr ?_
          intro x hx
          have hxne : next.hash ≠ x.hash := hnextr x hx
          simp [mapSet, mapHas, mapGet, if_neg hxne]
        rw [sumUnmerged_cons, sumUnmerged_cons, hfin, hnextfresh]
        simp only [if_true, Bool.false_eq_true, if_false]
        rw [hrest_eq] at hrec
        have hlit : ({ copied with totalSize := copied.totalSize + next.totalSize } :
            CallsiteInfo).totalSize = copied.totalSize + next.totalSize := rfl
        rw [hlit] at hrec
        omega
      · rw [if_neg hc]
        have hrec := ih copied m huqr hshr
          (fun x hx hhas => hnd x (by simp [hx]) hhas) hcp
        have hnext_eq : mapHas (mergeScan copied m minSize rest).2 next.hash =
            mapHas m next.hash := by
          obtain ⟨ext, hext, hdesc⟩ := mergeScan_keys_sub copied m minSize rest
          rw [hext, mapHas_append]
          have : mapGet ext next.hash = none := by
            refine mapGet_eq_none_of_no_key ?_
            intro q hq heq
            obtain ⟨⟨x, hx, hxh⟩, -⟩ := hdesc q hq
            exact hnextr x hx (by rw [← hxh, heq])
          rw [mapHas, this]
          simp
        rw [sumUnmerged_cons, sumUnmerged_cons, hnext_eq]
        omega
    · rw [if_neg hd]

/-! ### List helpers for unique-hash inputs -/

/-- Two members of a pairwise-distinct-hash list with equal hashes are the
same record. -/
theorem uniqueElem {l : List CallsiteInfo} (huq : UniqueHashes l)
    {a b : CallsiteInfo} (ha : a ∈ l) (hb : b ∈ l) (hh : a.hash = b.hash) :
    a = b := by
  induction l with
  | nil => cases ha
  | cons c l ih =>
    obtain ⟨hhead, htail⟩ := List.pairwise_cons.mp huq
    rcases List.mem_cons.mp ha with ha | ha <;>
      rcases List.mem_cons.mp hb with hb | hb
    · rw [ha, hb]
    · exact absurd hh (ha ▸ hhead b hb)
    · exact absurd hh.symm (hb ▸ hhead a ha)
    · exact ih htail ha hb

/-- In a pairwise-distinct-hash list, two decompositions around elements of
equal hash coincide. -/
theorem unique_decomp {l pre suf pre2 suf2 : List CallsiteInfo}
    {x y : CallsiteInfo} (huq : UniqueHashes l)
    (h1 : l = pre ++ x :: suf) (h2 : l = pre2 ++ y :: suf2)
    (hh : x.hash = y.hash) : pre = pre2 ∧ x = y ∧ suf = suf2 := by
  induction l generalizing pre pre2 with
  | nil =>
    cases pre <;> simp at h1
  | cons c l ih =>
    obtain ⟨hhead, htail⟩ := List.pairwise_cons.mp huq
    cases pre with
    | nil =>
      cases pre2 with
      | nil =>
        simp only [List.nil_append, List.cons.injEq] at h1 h2
        exact ⟨rfl, h1.1.symm.trans h2.1, h1.2.symm.trans h2.2⟩
      | cons b pre2 =>
        simp only [List.nil_append, List.cons.injEq] at h1
        simp only [List.cons_append, List.cons.injEq] at h2
        have hy : y ∈ l := by
          rw [h2.2]
          simp
        exact absurd hh (h1.1 ▸ hhead y hy)
    | cons a pre =>
      cases pre2 with
      | nil =>
        simp only [List.cons_append, List.cons.injEq] at h1
        simp only [List.nil_append, List.cons.injEq] at h2
        have hx : x ∈ l := by
          rw [h1.2]
          simp
        exact absurd hh.symm (h2.1 ▸ hhead x hx)
      | cons b pre2 =>
        simp only [List.cons_append, List.cons.injEq] at h1 h2
        obtain ⟨hp, hxy, hs⟩ := ih htail h1.2 h2.2 
        exact ⟨by rw [← h1.1, ← h2.1, hp], hxy, hs⟩

/-! ### Structure lemmas for `mergeLoop` -/

theorem mergeLoop_nil (m : MergedMap) (minSize : Int) :
    mergeLoop m minSize [] = ([], m) := rfl

theorem copiedOf_eq (c : CallsiteInfo) (m : MergedMap) :
    copiedOf c m =
      ⟨c.hash, resolveHash m c.parentHash, c.depth, c.name, c.totalSize⟩ := rfl

theorem mergeLoop_cons_skip {m : MergedMap} {minSize : Int} {c : CallsiteInfo}
    {rest : List CallsiteInfo} (h : mapHas m c.hash = true) :
    mergeLoop m minSize (c :: rest) = mergeLoop m minSize rest := by
  simp [mergeLoop, h]

theorem mergeLoop_cons_big {m : MergedMap} {minSize : Int} {c : CallsiteInfo}
    {rest : List CallsiteInfo} (h : mapHas m c.hash = false)
    (hbig : ¬ c.totalSize ≤ minSize) :
    mergeLoop m minSize (c :: rest) =
      (copiedOf c m :: (mergeLoop m minSize rest).1,
        (mergeLoop m minSize rest).2) := by
  simp only [mergeLoop, h, Bool.false_eq_true, if_false, copyCallsite,
    getCallsitesParentHash]
  rw [if_neg hbig]
  rfl

theorem mergeLoop_cons_small {m : MergedMap} {minSize : Int} {c : CallsiteInfo}
    {rest : List CallsiteInfo} (h : mapHas m c.hash = false)
    (hsmall : c.totalSize ≤ minSize) :
    mergeLoop m minSize (c :: rest) =
      ((mergeScan (copiedOf c m) m minSize rest).1 ::
        (mergeLoop (mergeScan (copiedOf c m) m minSize rest).2 minSize rest).1,
       (mergeLoop (mergeScan (copiedOf c m) m minSize rest).2 minSize rest).2) := by
  simp only [mergeLoop, h, Bool.false_eq_true, if_false, copyCallsite,
    getCallsitesParentHash]
  rw [if_pos hsmall]
  rfl

theorem copiedOf_hash (c : CallsiteInfo) (m : MergedMap) :
    (copiedOf c m).hash = c.hash := rfl

theorem copiedOf_parentHash (c : CallsiteInfo) (m : MergedMap) :
    (copiedOf c m).parentHash = resolveHash m c.parentHash := rfl

theorem copiedOf_depth (c : CallsiteInfo) (m : MergedMap) :
    (copiedOf c m).depth = c.depth := rfl

theorem copiedOf_totalSize (c : CallsiteInfo) (m : MergedMap) :
    (copiedOf c m).totalSize = c.totalSize := rfl

/-! ### Restriction of the state predicates to the tail -/

theorem uniqueHashes_tail {c : CallsiteInfo} {tail : List CallsiteInfo}
    (h : UniqueHashes (c :: tail)) : UniqueHashes tail :=
  (List.pairwise_cons.mp h).2

theorem sortedByDepth_tail {c : CallsiteInfo} {tail : List CallsiteInfo}
    (h : SortedByDepth (c :: tail)) : SortedByDepth tail :=
  (List.pairwise_cons.mp h).2

theorem parentsShallower_tail {c : CallsiteInfo} {tail : List CallsiteInfo}
    (h : ParentsShallower (c :: tail)) : ParentsShallower tail :=
  fun x hx y hy => h x (by simp [hx]) y (by simp [hy])

theorem valuesFresh_tail {m : MergedMap} {c : CallsiteInfo}
    {tail : List CallsiteInfo} (h : ValuesFresh m (c :: tail)) :
    ValuesFresh m tail :=
  fun q hq x hx => h q hq x (by simp [hx])

theorem mergeInv_tail {minSize : Int} {m : MergedMap} {c : CallsiteInfo}
    {tail : List CallsiteInfo} (h : MergeInv minSize m (c :: tail)) :
    MergeInv minSize m tail := by
  intro pre x suf hdec hhas
  obtain ⟨h1, h2, h3, h4⟩ := h (c :: pre) x suf (by rw [hdec]; rfl) hhas
  exact ⟨fun l hl => h1 l (by simp [hl]), h2,
    fun j hj => h3 j (by simp [hj]), h4⟩

theorem sameClassSameRep_tail {m : MergedMap} {c : CallsiteInfo}
    {tail : List CallsiteInfo} (h : SameClassSameRep m (c :: tail)) :
    SameClassSameRep m tail :=
  fun x hx y hy => h x (by simp [hx]) y (by simp [hy])

/-! ### Facts available when an unmerged small record starts its scan -/

/-- The resolved parent hash of the record at the loop head differs from
its own hash. -/
theorem resolved_parent_ne_hash {m : MergedMap} {c : CallsiteInfo}
    {tail : List CallsiteInfo} (hsh : ParentsShallower (c :: tail))
    (hvf : ValuesFresh m (c :: tail)) :
    resolveHash m c.parentHash ≠ c.hash := by
  rw [resolveHash]
  cases hmg : mapGet m c.parentHash with
  | none =>
    intro heq
    have := hsh c (by simp) c (by simp) heq.symm
    omega
  | some v =>
    exact hvf (c.parentHash, v) (mapGet_mem hmg) c (by simp)

/-- No record of the tail that is already merged can have the head's
resolved parent hash: otherwise the head itself would have been merged by
the same representative's scan. -/
theorem marked_tail_parent_ne {minSize : Int} {m : MergedMap}
    {c : CallsiteInfo} {tail : List CallsiteInfo}
    (hinv : MergeInv minSize m (c :: tail)) (hskip : mapHas m c.hash = false)
    (hsmall : c.totalSize ≤ minSize) :
    ∀ x ∈ tail, mapHas m x.hash = true →
      resolveHash m x.parentHash ≠ resolveHash m c.parentHash := by
  intro x hx hhas heq
  obtain ⟨pre, suf, hdec⟩ := List.append_of_mem hx
  obtain ⟨-, -, h3, -⟩ := hinv (c :: pre) x suf (by rw [hdec]; rfl) hhas
  have := h3 c (by simp) hsmall heq.symm
  rw [hskip] at this
  cases this

/-- Resolution of the parent hash of any same-depth record of the tail is
unchanged by the head's scan. -/
theorem scan_parent_stable (minSize : Int) {m : MergedMap} {c : CallsiteInfo}
    {tail : List CallsiteInfo} (hsh : ParentsShallower (c :: tail))
    {x : CallsiteInfo} (hx : x ∈ tail) (hxd : x.depth = c.depth) :
    resolveHash (mergeScan (copiedOf c m) m minSize tail).2 x.parentHash =
      resolveHash m x.parentHash := by
  refine resolveHash_eq_of_mapGet_eq (mergeScan_mapGet_stable _ _ _ _
    (parentsShallower_tail hsh) ?_)
  intro y hy heq
  have := hsh x (by simp [hx]) y (by simp [hy]) heq
  rw [copiedOf_depth]
  omega

/-- Records of the tail already marked before the head's scan keep their
binding (they are never re-marked). -/
theorem scan_get_stable_marked {minSize : Int} {m : MergedMap}
    {c : CallsiteInfo} {tail : List CallsiteInfo}
    (huq : UniqueHashes (c :: tail)) (hsh : ParentsShallower (c :: tail))
    (hinv : MergeInv minSize m (c :: tail)) (hskip : mapHas m c.hash = false)
    (hsmall : c.totalSize ≤ minSize)
    {z : CallsiteInfo} (hz : z ∈ tail) (hhz : mapHas m z.hash = true) :
    mapGet (mergeScan (copiedOf c m) m minSize tail).2 z.hash =
      mapGet m z.hash := by
  obtain ⟨ext, hext, hdesc⟩ := mergeScan_map_ext (copiedOf c m) m minSize tail
    (parentsShallower_tail hsh)
  rw [hext]
  refine mapGet_append_of_not_key ?_
  intro q hq heq
  obtain ⟨-, pre2, x2, suf2, hdec2, hxh2, -, -, hxr2, -⟩ := hdesc q hq
  have hx2z : x2 = z := uniqueElem (uniqueHashes_tail huq)
    (by simp [hdec2]) hz (by rw [hxh2, heq])
  subst hx2z
  exact marked_tail_parent_ne hinv hskip hsmall x2 hz hhz
    (by rw [hxr2, copiedOf_parentHash])

/-- The loop invariant survives the head's scan. -/
theorem mergeInv_after_scan {minSize : Int} {m : MergedMap} {c : CallsiteInfo}
    {tail : List CallsiteInfo}
    (huq : UniqueHashes (c :: tail)) (hsh : ParentsShallower (c :: tail))
    (hinv : MergeInv minSize m (c :: tail)) (_hskip : mapHas m c.hash = false)
    (_hsmall : c.totalSize ≤ minSize) :
    MergeInv minSize (mergeScan (copiedOf c m) m minSize tail).2 tail := by
  intro pre x suf hdec hhas'
  have hxtail : x ∈ tail := by simp [hdec]
  obtain ⟨ext, hext, hdesc⟩ := mergeScan_map_ext (copiedOf c m) m minSize tail
    (parentsShallower_tail hsh)
  cases hold : mapHas m x.hash with
  | true =>
    obtain ⟨h1, h2, h3, h4⟩ := hinv (c :: pre) x suf (by rw [hdec]; rfl) hold
    have hxd : x.depth = c.depth := (h1 c (by simp)).symm
    have hsx : resolveHash (mergeScan (copiedOf c m) m minSize tail).2
        x.parentHash = resolveHash m x.parentHash :=
      scan_parent_stable minSize hsh hxtail hxd
    refine ⟨fun l hl => h1 l (by simp [hl]), h2, ?_, ?_⟩
    · intro j hj hjs hjr'
      have hjtail : j ∈ tail := by
        rw [hdec]
        exact List.mem_append_left _ hj
      have hjd : j.depth = c.depth := (h1 j (by simp [hj])).trans hxd
      have hsj : resolveHash (mergeScan (copiedOf c m) m minSize tail).2
          j.parentHash = resolveHash m j.parentHash :=
        scan_parent_stable minSize hsh hjtail hjd
      rw [hsj, hsx] at hjr'
      exact mergeScan_has_mono _ _ _ _ (h3 j (by simp [hj]) hjs hjr')
    · intro s1 y s2 hsuf hs1 hyd hys hyr'
      have hytail : y ∈ tail := by
        rw [hdec, hsuf]
        simp
      have hyd' : y.depth = c.depth := hyd.trans hxd
      have hsy : resolveHash (mergeScan (copiedOf c m) m minSize tail).2
          y.parentHash = resolveHash m y.parentHash :=
        scan_parent_stable minSize hsh hytail hyd'
      rw [hsy, hsx] at hyr'
      exact mergeScan_has_mono _ _ _ _ (h4 s1 y s2 hsuf hs1 hyd hys hyr')
  | false =>
    have hnewb : mapHas ext x.hash = true := by
      rw [hext, mapHas_append, hold, Bool.or_false] at hhas'
      exact hhas'
    obtain ⟨v, hgetv⟩ := mapHas_iff.mp hnewb
    obtain ⟨hval, pre2, x2, suf2, hdec2, hxh2, hx2d, hx2s, hx2r, hwin2⟩ :=
      hdesc (x.hash, v) (mapGet_mem hgetv)
    have hx2x : x2 = x := uniqueElem (uniqueHashes_tail huq)
      (by simp [hdec2]) hxtail hxh2
    obtain ⟨hpre, -, hsuf⟩ := unique_decomp (uniqueHashes_tail huq)
      hdec hdec2 hxh2.symm
    rw [← hpre] at hwin2
    rw [hx2x] at hx2d hx2s hx2r
    have hxd : x.depth = c.depth := hx2d
    have hsx : resolveHash (mergeScan (copiedOf c m) m minSize tail).2
        x.parentHash = resolveHash m x.parentHash :=
      scan_parent_stable minSize hsh hxtail hxd
    refine ⟨fun l hl => (hwin2 l hl).trans hxd.symm, hx2s, ?_, ?_⟩
    · intro j hj hjs hjr'
      have hjtail : j ∈ tail := by
        rw [hdec]
        exact List.mem_append_left _ hj
      have hjd : j.depth = c.depth := hwin2 j hj
      have hsj : resolveHash (mergeScan (copiedOf c m) m minSize tail).2
          j.parentHash = resolveHash m j.parentHash :=
        scan_parent_stable minSize hsh hjtail hjd
      rw [hsj, hsx] at hjr'
      obtain ⟨p1, p2, hpre⟩ := List.append_of_mem hj
      refine mergeScan_marks_window (copiedOf c m) m minSize tail
        (parentsShallower_tail hsh) p1 j (p2 ++ x :: suf) ?_ ?_ hjd hjs ?_
      · rw [hdec, hpre]
        simp
      · intro l hl
        exact hwin2 l (by rw [hpre]; exact List.mem_append_left _ hl)
      · rw [hjr', hx2r, copiedOf_parentHash]
    · intro s1 y s2 hsuf hs1 hyd hys hyr'
      have hytail : y ∈ tail := by
        rw [hdec, hsuf]
        simp
      have hyd' : y.depth = c.depth := hyd.trans hxd
      have hsy : resolveHash (mergeScan (copiedOf c m) m minSize tail).2
          y.parentHash = resolveHash m y.parentHash :=
        scan_parent_stable minSize hsh hytail hyd'
      rw [hsy, hsx] at hyr'
      refine mergeScan_marks_window (copiedOf c m) m minSize tail
        (parentsShallower_tail hsh) (pre ++ x :: s1) y s2 ?_ ?_ hyd' hys ?_
      · rw [hdec, hsuf]
        simp
      · intro l hl
        rcases List.mem_append.mp hl with hl | hl
        · exact hwin2 l hl
        · rcases List.mem_cons.mp hl with hl | hl
          · rw [hl]; exact hxd
          · exact (hs1 l hl).trans hxd
      · rw [hyr', hx2r, copiedOf_parentHash]

/-- Freshness of map values survives the head's scan. -/
theorem valuesFresh_after_scan {minSize : Int} {m : MergedMap}
    {c : CallsiteInfo} {tail : List CallsiteInfo}
    (huq : UniqueHashes (c :: tail)) (hvf : ValuesFresh m (c :: tail)) :
    ValuesFresh (mergeScan (copiedOf c m) m minSize tail).2 tail := by
  obtain ⟨ext, hext, hdesc⟩ := mergeScan_keys_sub (copiedOf c m) m minSize tail
  rw [hext]
  intro q hq x hx
  rcases List.mem_append.mp hq with hq | hq
  · obtain ⟨-, hval⟩ := hdesc q hq
    rw [hval, copiedOf_hash]
    exact (List.pairwise_cons.mp huq).1 x hx
  · exact hvf q hq x (by simp [hx])

/-- Same-class marked records still share a representative after the
head's scan. -/
theorem sameClassSameRep_after_scan {minSize : Int} {m : MergedMap}
    {c : CallsiteInfo} {tail : List CallsiteInfo}
    (huq : UniqueHashes (c :: tail)) (hsh : ParentsShallower (c :: tail))
    (hinv : MergeInv minSize m (c :: tail))
    (hscr : SameClassSameRep m (c :: tail))
    (hskip : mapHas m c.hash = false) (hsmall : c.totalSize ≤ minSize) :
    SameClassSameRep (mergeScan (copiedOf c m) m minSize tail).2 tail := by
  intro x hx y hy hhx' hhy' hdxy hrxy'
  obtain ⟨ext, hext, hdesc⟩ := mergeScan_map_ext (copiedOf c m) m minSize tail
    (parentsShallower_tail hsh)
  -- a record marked by this scan has x.depth = c.depth and its parent
  -- resolves (at `m`) to the copy's parent hash
  have hnewfact : ∀ z ∈ tail, mapHas m z.hash = false →
      mapHas (mergeScan (copiedOf c m) m minSize tail).2 z.hash = true →
      z.depth = c.depth ∧ resolveHash m z.parentHash = resolveHash m c.parentHash ∧
        mapGet (mergeScan (copiedOf c m) m minSize tail).2 z.hash =
          some c.hash := by
    intro z hz hzold hznew
    rw [hext, mapHas_append, hzold, Bool.or_false] at hznew
    obtain ⟨v, hgetv⟩ := mapHas_iff.mp hznew
    obtain ⟨hval, pre2, x2, suf2, hdec2, hxh2, hx2d, -, hx2r, -⟩ :=
      hdesc (z.hash, v) (mapGet_mem hgetv)
    have hx2z : x2 = z := uniqueElem (uniqueHashes_tail huq)
      (by simp [hdec2]) hz hxh2
    rw [hx2z] at hx2d hx2r
    refine ⟨hx2d, by rw [hx2r, copiedOf_parentHash], ?_⟩
    have hv : v = c.hash := hval
    rw [hext, mapGet_append, hgetv, hv]
  -- old-marked records keep their binding and have depth `c.depth`
  have holdfact : ∀ z ∈ tail, mapHas m z.hash = true →
      z.depth = c.depth ∧
        mapGet (mergeScan (copiedOf c m) m minSize tail).2 z.hash =
          mapGet m z.hash := by
    intro z hz hhz
    obtain ⟨pre, suf, hdec⟩ := List.append_of_mem hz
    obtain ⟨h1, -, -, -⟩ := hinv (c :: pre) z suf (by rw [hdec]; rfl) hhz
    exact ⟨(h1 c (by simp)).symm,
      scan_get_stable_marked huq hsh hinv hskip hsmall hz hhz⟩
  cases holdx : mapHas m x.hash with
  | true =>
    cases holdy : mapHas m y.hash with
    | true =>
      obtain ⟨hxd, hxg⟩ := holdfact x hx holdx
      obtain ⟨hyd, hyg⟩ := holdfact y hy holdy
      rw [hxg, hyg]
      rw [scan_parent_stable minSize hsh hx hxd,
        scan_parent_stable minSize hsh hy hyd] at hrxy'
      exact hscr x (by simp [hx]) y (by simp [hy]) holdx holdy hdxy hrxy'
    | false =>
      obtain ⟨hyd, hyr, -⟩ := hnewfact y hy holdy hhy'
      obtain ⟨hxd, -⟩ := holdfact x hx holdx
      rw [scan_parent_stable minSize hsh hx hxd,
        scan_parent_stable minSize hsh hy hyd] at hrxy'
      exact absurd (hrxy'.trans hyr)
        (marked_tail_parent_ne hinv hskip hsmall x hx holdx)
  | false =>
    cases holdy : mapHas m y.hash with
    | true =>
      obtain ⟨hxd, hxr, -⟩ := hnewfact x hx holdx hhx'
      obtain ⟨hyd, -⟩ := holdfact y hy holdy
      rw [scan_parent_stable minSize hsh hx hxd,
        scan_parent_stable minSize hsh hy hyd] at hrxy'
      exact absurd (hrxy'.symm.trans hxr)
        (marked_tail_parent_ne hinv hskip hsmall y hy holdy)
    | false =>
      obtain ⟨-, -, hxg⟩ := hnewfact x hx holdx hhx'
      obtain ⟨-, -, hyg⟩ := hnewfact y hy holdy hhy'
      rw [hxg, hyg]

/-- Keys the whole remaining loop adds to the map are hashes of records
strictly after the loop head; values are hashes of records of the
remainder. -/
theorem mergeLoop_keys_sub (rest : List CallsiteInfo) (m : MergedMap)
    (minSize : Int) :
    ∃ ext, (mergeLoop m minSize rest).2 = ext ++ m ∧
      ∀ q ∈ ext, (∃ x ∈ rest.tail, q.1 = x.hash) ∧
        (∃ r ∈ rest, q.2 = r.hash) := by
  induction rest generalizing m with
  | nil => exact ⟨[], rfl, by simp⟩
  | cons c tail ih =>
    cases hskip : mapHas m c.hash with
    | true =>
      rw [mergeLoop_cons_skip hskip]
      obtain ⟨ext, hext, hdesc⟩ := ih m
      refine ⟨ext, hext, ?_⟩
      intro q hq
      obtain ⟨⟨x, hx, hxh⟩, ⟨r, hr, hrh⟩⟩ := hdesc q hq
      exact ⟨⟨x, List.mem_of_mem_tail hx, hxh⟩, ⟨r, by simp [hr], hrh⟩⟩
    | false =>
      by_cases hsmall : c.totalSize ≤ minSize
      · rw [mergeLoop_cons_small hskip hsmall]
        obtain ⟨ext0, hext0, hdesc0⟩ :=
          mergeScan_keys_sub (copiedOf c m) m minSize tail
        obtain ⟨ext1, hext1, hdesc1⟩ := ih (mergeScan (copiedOf c m) m minSize tail).2
        refine ⟨ext1 ++ ext0, by rw [hext1, hext0, List.append_assoc], ?_⟩
        intro q hq
        rcases List.mem_append.mp hq with hq | hq
        · obtain ⟨⟨x, hx, hxh⟩, ⟨r, hr, hrh⟩⟩ := hdesc1 q hq
          exact ⟨⟨x, List.mem_of_mem_tail hx, hxh⟩, ⟨r, by simp [hr], hrh⟩⟩
        · obtain ⟨⟨x, hx, hxh⟩, hval⟩ := hdesc0 q hq
          exact ⟨⟨x, hx, hxh⟩, ⟨c, by simp, by rw [hval, copiedOf_hash]⟩⟩
      · rw [mergeLoop_cons_big hskip hsmall]
        obtain ⟨ext, hext, hdesc⟩ := ih m
        refine ⟨ext, hext, ?_⟩
        intro q hq
        obtain ⟨⟨x, hx, hxh⟩, ⟨r, hr, hrh⟩⟩ := hdesc q hq
        exact ⟨⟨x, List.mem_of_mem_tail hx, hxh⟩, ⟨r, by simp [hr], hrh⟩⟩

theorem mergeLoop_has_mono (rest : List CallsiteInfo) (m : MergedMap)
    (minSize : Int) {h : Int} (hm : mapHas m h = true) :
    mapHas (mergeLoop m minSize rest).2 h = true := by
  obtain ⟨ext, hext, -⟩ := mergeLoop_keys_sub rest m minSize
  rw [hext, mapHas_append, hm]
  simp

theorem mergeLoop_get_stable (rest : List CallsiteInfo) (m : MergedMap)
    (minSize : Int) {p : Int} (hp : ∀ x ∈ rest.tail, x.hash ≠ p) :
    mapGet (mergeLoop m minSize rest).2 p = mapGet m p := by
  obtain ⟨ext, hext, hdesc⟩ := mergeLoop_keys_sub rest m minSize
  rw [hext]
  refine mapGet_append_of_not_key ?_
  intro q hq heq
  obtain ⟨⟨x, hx, hxh⟩, -⟩ := hdesc q hq
  exact hp x hx (hxh ▸ heq)

theorem sumUnmerged_empty_map (l : List CallsiteInfo) :
    sumUnmerged [] l = sumSizes l := by
  induction l with
  | nil => rfl
  | cons x l ih =>
    rw [sumUnmerged_cons, mapHas_nil, ih, sumSizes_cons]
    simp

/-- Run-level conservation: with unique hashes and strictly shallower
parent references, the output of the remaining loop carries exactly the
total size of the records of the remainder not yet marked as merged. -/
theorem mergeLoop_sum (rest : List CallsiteInfo) (m : MergedMap)
    (minSize : Int) (huq : UniqueHashes rest) (hsh : ParentsShallower rest)
    (hinv : MergeInv minSize m rest) (hvf : ValuesFresh m rest) :
    sumSizes (mergeLoop m minSize rest).1 = sumUnmerged m rest := by
  induction rest generalizing m with
  | nil => rfl
  | cons c tail ih =>
    cases hskip : mapHas m c.hash with
    | true =>
      rw [mergeLoop_cons_skip hskip, sumUnmerged_cons, hskip]
      rw [ih m (uniqueHashes_tail huq) (parentsShallower_tail hsh)
        (mergeInv_tail hinv) (valuesFresh_tail hvf)]
      simp
    | false =>
      by_cases hsmall : c.totalSize ≤ minSize
      · rw [mergeLoop_cons_small hskip hsmall, sumUnmerged_cons, hskip]
        simp only [Bool.false_eq_true, if_false, sumSizes_cons]
        have hnd : ∀ x ∈ tail, mapHas m x.hash = true →
            resolveHash m x.parentHash ≠ (copiedOf c m).parentHash := by
          intro x hx hhas
          rw [copiedOf_parentHash]
          exact marked_tail_parent_ne hinv hskip hsmall x hx hhas
        have hcp : (copiedOf c m).parentHash ≠ (copiedOf c m).hash := by
          rw [copiedOf_parentHash, copiedOf_hash]
          exact resolved_parent_ne_hash hsh hvf
        have hsum := mergeScan_sum (copiedOf c m) m minSize tail
          (uniqueHashes_tail huq) (parentsShallower_tail hsh) hnd hcp
        rw [ih (mergeScan (copiedOf c m) m minSize tail).2
          (uniqueHashes_tail huq) (parentsShallower_tail hsh)
          (mergeInv_after_scan huq hsh hinv hskip hsmall)
          (valuesFresh_after_scan huq hvf)]
        rw [copiedOf_totalSize] at hsum
        omega
      · rw [mergeLoop_cons_big hskip hsmall, sumUnmerged_cons, hskip,
          sumSizes_cons, copiedOf_totalSize]
        rw [ih m (uniqueHashes_tail huq) (parentsShallower_tail hsh)
          (mergeInv_tail hinv) (valuesFresh_tail hvf)]
        simp

theorem mergeInv_empty (minSize : Int) (rest : List CallsiteInfo) :
    MergeInv minSize [] rest := by
  intro pre x suf hdec hhas
  rw [mapHas_nil] at hhas
  cases hhas

theorem valuesFresh_empty (rest : List CallsiteInfo) : ValuesFresh [] rest :=
  fun q hq => absurd hq (List.not_mem_nil q)

theorem sameClassSameRep_empty (rest : List CallsiteInfo) :
    SameClassSameRep [] rest := by
  intro x _ y _ hhx _ _ _
  rw [mapHas_nil] at hhx
  cases hhx

/-- C1 (amended): under unique hashes and parent references that only
match strictly shallower records, `mergeCallsites` conserves the sum of
`totalSize`. -/
theorem mergeCallsites_conservation (data : List CallsiteInfo) (minSize : Int)
    (huq : UniqueHashes data) (hsh : ParentsShallower data) :
    sumSizes (mergeCallsites data minSize) = sumSizes data := by
  rw [mergeCallsites, mergeLoop_sum data [] minSize huq hsh
    (mergeInv_empty minSize data) (valuesFresh_empty data),
    sumUnmerged_empty_map]

/-- C1 (counterexample to the claim as stated): an input with unique
hashes — but with parent references to same-depth records — on which
`mergeCallsites` fails to conserve the total size (record `x` is folded
into two different representatives and counted twice). -/
theorem mergeCallsites_conservation_cex :
    UniqueHashes exampleSameDepthParents ∧
    sumSizes (mergeCallsites exampleSameDepthParents 10) ≠
      sumSizes exampleSameDepthParents := by
  decide

/-- C1 witness: the amended conservation theorem applied to Scenario 1. -/
theorem mergeCallsites_conservation_witness :
    UniqueHashes exampleSiblings ∧ ParentsShallower exampleSiblings ∧
    sumSizes (mergeCallsites exampleSiblings 2) = sumSizes exampleSiblings :=
  ⟨by decide, by decide,
    mergeCallsites_conservation exampleSiblings 2 (by decide) (by decide)⟩

/-- C9: the empty input yields the empty output. -/
theorem mergeCallsites_empty (minSizeDisplayed : Int) :
    mergeCallsites [] minSizeDisplayed = [] := rfl

/-- C10: the publish guard of `run` evaluates over the selection captured
when the fetch was issued only — it is true for every captured selection
whenever the fetched data is defined, regardless of the selection active
at completion time, so in particular a result for the stale selection
`(id 1, ts 100)` is published after the active selection has changed to
`(id 2, ts 200)`. -/
theorem runGuardAtCompletion_ignores_current_selection :
    (∀ s : FlamegraphSelection, runGuardAtCompletion s true = true) ∧
    runGuardAtCompletion ⟨"HEAP_PROFILE_FLAMEGRAPH", 1, 3, 100⟩ true = true ∧
    (⟨"HEAP_PROFILE_FLAMEGRAPH", 1, 3, 100⟩ : FlamegraphSelection) ≠
      ⟨"HEAP_PROFILE_FLAMEGRAPH", 2, 3, 200⟩ := by
  refine ⟨?_, by decide, by decide⟩
  intro s
  simp [runGuardAtCompletion, runPublishGuard]

/-- A scan over a suffix that contains no same-depth record with equal
literal parent hash and small size leaves everything unchanged (starting
from the empty map, where resolution is the identity). -/
theorem mergeScan_no_marks (copied : CallsiteInfo) (minSize : Int)
    (suffix : List CallsiteInfo)
    (h : ∀ next ∈ suffix, copied.depth = next.depth →
      ¬(copied.parentHash = next.parentHash ∧ next.totalSize ≤ minSize)) :
    mergeScan copied [] minSize suffix = (copied, []) := by
  induction suffix with
  | nil => rfl
  | cons next rest ih =>
    rw [mergeScan_cons]
    by_cases hd : copied.depth = next.depth
    · rw [if_pos hd]
      have : ¬(copied.parentHash = getCallsitesParentHash next [] ∧
          next.totalSize ≤ minSize) := h next (by simp) hd
      rw [if_neg this]
      exact ih (fun n hn => h n (by simp [hn]))
    · rw [if_neg hd]

theorem copiedOf_empty_map (c : CallsiteInfo) : copiedOf c [] = c := rfl

/-- C5: on an input in which any two records of the same (depth, parent
hash) group both exceed the threshold — i.e. every record exceeds
`minSizeDisplayed` or is the sole record of its group — `mergeCallsites`
is the identity. -/
theorem mergeCallsites_idempotent (data : List CallsiteInfo) (minSize : Int)
    (h : data.Pairwise (fun u v => u.depth = v.depth →
      u.parentHash = v.parentHash →
      minSize < u.totalSize ∧ minSize < v.totalSize)) :
    mergeCallsites data minSize = data := by
  suffices hloop : mergeLoop [] minSize data = (data, []) by
    rw [mergeCallsites, hloop]
  induction data with
  | nil => rfl
  | cons c tail ih =>
    obtain ⟨hhead, htail⟩ := List.pairwise_cons.mp h
    by_cases hsmall : c.totalSize ≤ minSize
    · rw [mergeLoop_cons_small (by rw [mapHas_nil]) hsmall]
      have hscan : mergeScan (copiedOf c []) [] minSize tail =
          (copiedOf c [], []) := by
        refine mergeScan_no_marks _ _ _ ?_
        intro next hn hd hcond
        rw [copiedOf_empty_map] at hd
        have := (hhead next hn hd (by
          rw [← hcond.1, copiedOf_empty_map])).1
        omega
      rw [hscan, ih htail, copiedOf_empty_map]
    · rw [mergeLoop_cons_big (by rw [mapHas_nil]) hsmall, ih htail,
        copiedOf_empty_map]

/-- C5 witness: a big record and a sole small record at another depth. -/
theorem mergeCallsites_idempotent_witness :
    ([⟨1, -1, 0, "big", 5⟩, ⟨2, 1, 1, "solo", 1⟩] :
        List CallsiteInfo).Pairwise (fun u v => u.depth = v.depth →
      u.parentHash = v.parentHash → 2 < u.totalSize ∧ 2 < v.totalSize) ∧
    mergeCallsites [⟨1, -1, 0, "big", 5⟩, ⟨2, 1, 1, "solo", 1⟩] 2 =
      [⟨1, -1, 0, "big", 5⟩, ⟨2, 1, 1, "solo", 1⟩] :=
  ⟨by decide, mergeCallsites_idempotent _ 2 (by decide)⟩

/-- Where each output record comes from: an unmerged record `c` of the
remainder, copied with `hash`/`depth`/`name` unchanged and `parentHash`
resolved through the redirect map `mc` in force at `c`'s loop turn.  The
map `mc` extends the entry map only by bindings between record hashes of
the remainder, the final map extends `mc`, and if nothing before `c`
leaves `c`'s depth run, `c`'s parent resolves at `mc` as it did at
entry. -/
theorem mergeLoop_output_origin (rest : List CallsiteInfo) (m : MergedMap)
    (minSize : Int) (hsh : ParentsShallower rest) :
    ∀ o ∈ (mergeLoop m minSize rest).1,
      ∃ pre c suf, rest = pre ++ c :: suf ∧
        o.hash = c.hash ∧ o.depth = c.depth ∧ o.name = c.name ∧
        ∃ mc : MergedMap,
          o.parentHash = resolveHash mc c.parentHash ∧
          mapHas mc c.hash = false ∧
          (o.totalSize ≤ minSize → c.totalSize ≤ minSize) ∧
          (∃ ext2, mc = ext2 ++ m ∧
            ∀ q ∈ ext2, (∃ x ∈ rest, q.1 = x.hash) ∧ (∃ r ∈ rest, q.2 = r.hash)) ∧
          (∃ ext3, (mergeLoop m minSize rest).2 = ext3 ++ mc) ∧
          ((∀ l ∈ pre, l.depth = c.depth) →
            resolveHash mc c.parentHash = resolveHash m c.parentHash) := by
  induction rest generalizing m with
  | nil => intro o ho; cases ho
  | cons c0 tail ih =>
    intro o ho
    cases hskip : mapHas m c0.hash with
    | true =>
      rw [mergeLoop_cons_skip hskip] at ho ⊢
      obtain ⟨pre, c, suf, hdec, h1, h2, h3, mc, h4, h5, h6, ⟨ext2, he2, hd2⟩,
        h8, h9⟩ := ih m (parentsShallower_tail hsh) o ho
      refine ⟨c0 :: pre, c, suf, by rw [hdec]; rfl, h1, h2, h3, mc, h4, h5, h6,
        ⟨ext2, he2, ?_⟩, h8, ?_⟩
      · intro q hq
        obtain ⟨⟨x, hx, hxh⟩, ⟨r, hr, hrh⟩⟩ := hd2 q hq
        exact ⟨⟨x, by simp [hx], hxh⟩, ⟨r, by simp [hr], hrh⟩⟩
      · intro hwin
        exact h9 (fun l hl => hwin l (by simp [hl]))
    | false =>
      by_cases hsmall : c0.totalSize ≤ minSize
      · rw [mergeLoop_cons_small hskip hsmall] at ho ⊢
        rcases List.mem_cons.mp ho with ho | ho
        · obtain ⟨hf1, hf2, hf3, hf4⟩ :=
            mergeScan_fields (copiedOf c0 m) m minSize tail
          refine ⟨[], c0, tail, rfl, by rw [ho, hf1, copiedOf_hash],
            by rw [ho, hf3, copiedOf_depth], by rw [ho, hf4]; rfl, m,
            by rw [ho, hf2, copiedOf_parentHash], hskip,
            fun _ => hsmall, ⟨[], rfl, by simp⟩, ?_, fun _ => rfl⟩
          obtain ⟨ext1, hext1, -⟩ := mergeLoop_keys_sub tail
            (mergeScan (copiedOf c0 m) m minSize tail).2 minSize
          obtain ⟨ext0, hext0, -⟩ :=
            mergeScan_keys_sub (copiedOf c0 m) m minSize tail
          exact ⟨ext1 ++ ext0, by rw [hext1, hext0, List.append_assoc]⟩
        · obtain ⟨pre, c, suf, hdec, h1, h2, h3, mc, h4, h5, h6,
            ⟨ext2, he2, hd2⟩, ⟨ext3, he3⟩, h9⟩ :=
            ih (mergeScan (copiedOf c0 m) m minSize tail).2
              (parentsShallower_tail hsh) o ho
          obtain ⟨ext0, hext0, hd0⟩ :=
            mergeScan_keys_sub (copiedOf c0 m) m minSize tail
          refine ⟨c0 :: pre, c, suf, by rw [hdec]; rfl, h1, h2, h3, mc, h4, h5,
            h6, ⟨ext2 ++ ext0, by rw [he2, hext0, List.append_assoc], ?_⟩,
            ⟨ext3, he3⟩, ?_⟩
          · intro q hq
            rcases List.mem_append.mp hq with hq | hq
            · obtain ⟨⟨x, hx, hxh⟩, ⟨r, hr, hrh⟩⟩ := hd2 q hq
              exact ⟨⟨x, by simp [hx], hxh⟩, ⟨r, by simp [hr], hrh⟩⟩
            · obtain ⟨⟨x, hx, hxh⟩, hv⟩ := hd0 q hq
              exact ⟨⟨x, by simp [hx], hxh⟩,
                ⟨c0, by simp, by rw [hv, copiedOf_hash]⟩⟩
          · intro hwin
            have hcd : c.depth = c0.depth := (hwin c0 (by simp)).symm
            have hctail : c ∈ tail := by simp [hdec]
            rw [h9 (fun l hl => hwin l (by simp [hl]))]
            exact scan_parent_stable minSize hsh hctail hcd
      · rw [mergeLoop_cons_big hskip hsmall] at ho ⊢
        rcases List.mem_cons.mp ho with ho | ho
        · refine ⟨[], c0, tail, rfl, by rw [ho, copiedOf_hash],
            by rw [ho, copiedOf_depth], by rw [ho]; rfl, m,
            by rw [ho, copiedOf_parentHash], hskip,
            fun hle => ?_, ⟨[], rfl, by simp⟩, ?_, fun _ => rfl⟩
          · rw [ho, copiedOf_totalSize] at hle
            exact hle
          · obtain ⟨ext1, hext1, -⟩ := mergeLoop_keys_sub tail m minSize
            exact ⟨ext1, hext1⟩
        · obtain ⟨pre, c, suf, hdec, h1, h2, h3, mc, h4, h5, h6,
            ⟨ext2, he2, hd2⟩, h8, h9⟩ := ih m (parentsShallower_tail hsh) o ho
          refine ⟨c0 :: pre, c, suf, by rw [hdec]; rfl, h1, h2, h3, mc, h4, h5,
            h6, ⟨ext2, he2, ?_⟩, h8, ?_⟩
          · intro q hq
            obtain ⟨⟨x, hx, hxh⟩, ⟨r, hr, hrh⟩⟩ := hd2 q hq
            exact ⟨⟨x, by simp [hx], hxh⟩, ⟨r, by simp [hr], hrh⟩⟩
          · intro hwin
            exact h9 (fun l hl => hwin l (by simp [hl]))

theorem mapGet_append_none {m₁ m₂ : MergedMap} {p : Int}
    (h : mapGet (m₁ ++ m₂) p = none) : mapGet m₂ p = none := by
  rw [mapGet_append] at h
  cases hg : mapGet m₁ p with
  | none => rw [hg] at h; exact h
  | some v => rw [hg] at h; cases h

/-- Fields other than `totalSize` and `parentHash` of each output record
come verbatim from a record of the input (no preconditions). -/
theorem mergeLoop_output_fields (rest : List CallsiteInfo) (m : MergedMap)
    (minSize : Int) :
    ∀ o ∈ (mergeLoop m minSize rest).1,
      ∃ c ∈ rest, o.hash = c.hash ∧ o.depth = c.depth ∧ o.name = c.name := by
  induction rest generalizing m with
  | nil => intro o ho; cases ho
  | cons c0 tail ih =>
    intro o ho
    cases hskip : mapHas m c0.hash with
    | true =>
      rw [mergeLoop_cons_skip hskip] at ho
      obtain ⟨c, hc, h⟩ := ih m o ho
      exact ⟨c, by simp [hc], h⟩
    | false =>
      by_cases hsmall : c0.totalSize ≤ minSize
      · rw [mergeLoop_cons_small hskip hsmall] at ho
        rcases List.mem_cons.mp ho with ho | ho
        · obtain ⟨hf1, -, hf3, hf4⟩ :=
            mergeScan_fields (copiedOf c0 m) m minSize tail
          exact ⟨c0, by simp, by rw [ho, hf1, copiedOf_hash],
            by rw [ho, hf3, copiedOf_depth], by rw [ho, hf4]; rfl⟩
        · obtain ⟨c, hc, h⟩ := ih _ o ho
          exact ⟨c, by simp [hc], h⟩
      · rw [mergeLoop_cons_big hskip hsmall] at ho
        rcases List.mem_cons.mp ho with ho | ho
        · exact ⟨c0, by simp, by rw [ho, copiedOf_hash],
            by rw [ho, copiedOf_depth], by rw [ho]; rfl⟩
        · obtain ⟨c, hc, h⟩ := ih m o ho
          exact ⟨c, by simp [hc], h⟩

/-- Like `mergeLoop_output_origin` but with no precondition, dropping the
same-depth-window stability clause. -/
theorem mergeLoop_output_parent (rest : List CallsiteInfo) (m : MergedMap)
    (minSize : Int) :
    ∀ o ∈ (mergeLoop m minSize rest).1,
      ∃ pre c suf, rest = pre ++ c :: suf ∧ o.hash = c.hash ∧
        ∃ mc : MergedMap,
          o.parentHash = resolveHash mc c.parentHash ∧
          mapHas mc c.hash = false ∧
          (∃ ext2, mc = ext2 ++ m ∧
            ∀ q ∈ ext2, (∃ x ∈ rest, q.1 = x.hash) ∧ (∃ r ∈ rest, q.2 = r.hash)) ∧
          (∃ ext3, (mergeLoop m minSize rest).2 = ext3 ++ mc) := by
  induction rest generalizing m with
  | nil => intro o ho; cases ho
  | cons c0 tail ih =>
    intro o ho
    cases hskip : mapHas m c0.hash with
    | true =>
      rw [mergeLoop_cons_skip hskip] at ho ⊢
      obtain ⟨pre, c, suf, hdec, h1, mc, h4, h5, ⟨ext2, he2, hd2⟩, h8⟩ :=
        ih m o ho
      refine ⟨c0 :: pre, c, suf, by rw [hdec]; rfl, h1, mc, h4, h5,
        ⟨ext2, he2, ?_⟩, h8⟩
      intro q hq
      obtain ⟨⟨x, hx, hxh⟩, ⟨r, hr, hrh⟩⟩ := hd2 q hq
      exact ⟨⟨x, by simp [hx], hxh⟩, ⟨r, by simp [hr], hrh⟩⟩
    | false =>
      by_cases hsmall : c0.totalSize ≤ minSize
      · rw [mergeLoop_cons_small hskip hsmall] at ho ⊢
        rcases List.mem_cons.mp ho with ho | ho
        · obtain ⟨hf1, hf2, -, -⟩ :=
            mergeScan_fields (copiedOf c0 m) m minSize tail
          refine ⟨[], c0, tail, rfl, by rw [ho, hf1, copiedOf_hash], m,
            by rw [ho, hf2, copiedOf_parentHash], hskip,
            ⟨[], rfl, by simp⟩, ?_⟩
          obtain ⟨ext1, hext1, -⟩ := mergeLoop_keys_sub tail
            (mergeScan (copiedOf c0 m) m minSize tail).2 minSize
          obtain ⟨ext0, hext0, -⟩ :=
            mergeScan_keys_sub (copiedOf c0 m) m minSize tail
          exact ⟨ext1 ++ ext0, by rw [hext1, hext0, List.append_assoc]⟩
        · obtain ⟨pre, c, suf, hdec, h1, mc, h4, h5, ⟨ext2, he2, hd2⟩,
            ⟨ext3, he3⟩⟩ := ih _ o ho
          obtain ⟨ext0, hext0, hd0⟩ :=
            mergeScan_keys_sub (copiedOf c0 m) m minSize tail
          refine ⟨c0 :: pre, c, suf, by rw [hdec]; rfl, h1, mc, h4, h5,
            ⟨ext2 ++ ext0, by rw [he2, hext0, List.append_assoc], ?_⟩,
            ⟨ext3, he3⟩⟩
          intro q hq
          rcases List.mem_append.mp hq with hq | hq
          · obtain ⟨⟨x, hx, hxh⟩, ⟨r, hr, hrh⟩⟩ := hd2 q hq
            exact ⟨⟨x, by simp [hx], hxh⟩, ⟨r, by simp [hr], hrh⟩⟩
          · obtain ⟨⟨x, hx, hxh⟩, hv⟩ := hd0 q hq
            exact ⟨⟨x, by simp [hx], hxh⟩,
              ⟨c0, by simp, by rw [hv, copiedOf_hash]⟩⟩
      · rw [mergeLoop_cons_big hskip hsmall] at ho ⊢
        rcases List.mem_cons.mp ho with ho | ho
        · refine ⟨[], c0, tail, rfl, by rw [ho, copiedOf_hash], m,
            by rw [ho, copiedOf_parentHash], hskip, ⟨[], rfl, by simp⟩, ?_⟩
          obtain ⟨ext1, hext1, -⟩ := mergeLoop_keys_sub tail m minSize
          exact ⟨ext1, hext1⟩
        · obtain ⟨pre, c, suf, hdec, h1, mc, h4, h5, ⟨ext2, he2, hd2⟩, h8⟩ :=
            ih m o ho
          refine ⟨c0 :: pre, c, suf, by rw [hdec]; rfl, h1, mc, h4, h5,
            ⟨ext2, he2, ?_⟩, h8⟩
          intro q hq
          obtain ⟨⟨x, hx, hxh⟩, ⟨r, hr, hrh⟩⟩ := hd2 q hq
          exact ⟨⟨x, by simp [hx], hxh⟩, ⟨r, by simp [hr], hrh⟩⟩

/-- C7: every output record keeps the `hash`, `depth` and `name` of the
input record it was copied from; only `totalSize` and `parentHash` can
differ.  (The embedding is a pure function of its arguments, matching the
absence of side effects in the source: the input list is never
modified.) -/
theorem mergeCallsites_field_frame (data : List CallsiteInfo) (minSize : Int)
    (o : CallsiteInfo) (ho : o ∈ mergeCallsites data minSize) :
    ∃ c ∈ data, o.hash = c.hash ∧ o.depth = c.depth ∧ o.name = c.name :=
  mergeLoop_output_fields data [] minSize o ho

/-- C7 witness: the single output record of Scenario 1 originates from the
first input record. -/
theorem mergeCallsites_field_frame_witness :
    (⟨1, -1, 0, "a", 3⟩ : CallsiteInfo) ∈ mergeCallsites exampleSiblings 2 ∧
    ∃ c ∈ exampleSiblings, (⟨1, -1, 0, "a", 3⟩ : CallsiteInfo).hash = c.hash ∧
      (⟨1, -1, 0, "a", 3⟩ : CallsiteInfo).depth = c.depth ∧
      (⟨1, -1, 0, "a", 3⟩ : CallsiteInfo).name = c.name :=
  ⟨by decide, mergeCallsites_field_frame exampleSiblings 2 _ (by decide)⟩

/-- C4: each output record's `parentHash` is the image of the source
record's literal `parentHash` under the redirect map in force at its loop
turn — a map whose keys and values are hashes of input records, extended
by the rest of the run into the final map.  In particular, if the literal
`parentHash` matches no input record's hash (dangling parent), or if it
was never merged during the whole run, it is kept unchanged. -/
theorem mergeCallsites_parent_resolution (data : List CallsiteInfo)
    (minSize : Int) (o : CallsiteInfo) (ho : o ∈ mergeCallsites data minSize) :
    ∃ c ∈ data, o.hash = c.hash ∧
      ∃ mc : MergedMap,
        o.parentHash = getCallsitesParentHash c mc ∧
        mapHas mc c.hash = false ∧
        (∀ q ∈ mc, (∃ x ∈ data, q.1 = x.hash) ∧ (∃ r ∈ data, q.2 = r.hash)) ∧
        (∃ ext, finalMergedMap data minSize = ext ++ mc) ∧
        ((∀ z ∈ data, z.hash ≠ c.parentHash) → o.parentHash = c.parentHash) ∧
        (mapGet (finalMergedMap data minSize) c.parentHash = none →
          o.parentHash = c.parentHash) := by
  obtain ⟨pre, c, suf, hdec, h1, mc, h4, h5, ⟨ext2, he2, hd2⟩, ⟨ext3, he3⟩⟩ :=
    mergeLoop_output_parent data [] minSize o ho
  have hmc : ∀ q ∈ mc, (∃ x ∈ data, q.1 = x.hash) ∧ (∃ r ∈ data, q.2 = r.hash) := by
    intro q hq
    rw [he2, List.append_nil] at hq
    exact hd2 q hq
  refine ⟨c, by simp [hdec], h1, mc, h4, h5, hmc, ⟨ext3, he3⟩, ?_, ?_⟩
  · intro hdang
    have hnone : mapGet mc c.parentHash = none := by
      refine mapGet_eq_none_of_no_key ?_
      intro q hq heq
      obtain ⟨⟨x, hx, hxh⟩, -⟩ := hmc q hq
      exact hdang x hx (by rw [← hxh, heq])
    rw [h4, resolveHash, hnone]
  · intro hfin
    rw [finalMergedMap, he3] at hfin
    rw [h4, resolveHash, mapGet_append_none hfin]

/-- C4 witness: the emitted large child of a superseded root carries the
redirected parent hash of the surviving representative (1), not its
literal parent hash (2). -/
theorem mergeCallsites_parent_resolution_witness :
    (⟨3, 1, 1, "k", 50⟩ : CallsiteInfo) ∈
      mergeCallsites exampleRedirectedChild 10 ∧
    (∃ c ∈ exampleRedirectedChild,
      (⟨3, 1, 1, "k", 50⟩ : CallsiteInfo).hash = c.hash ∧
      ∃ mc : MergedMap,
        (⟨3, 1, 1, "k", 50⟩ : CallsiteInfo).parentHash =
          getCallsitesParentHash c mc ∧
        mapHas mc c.hash = false ∧
        (∀ q ∈ mc, (∃ x ∈ exampleRedirectedChild, q.1 = x.hash) ∧
          (∃ r ∈ exampleRedirectedChild, q.2 = r.hash)) ∧
        (∃ ext, finalMergedMap exampleRedirectedChild 10 = ext ++ mc) ∧
        ((∀ z ∈ exampleRedirectedChild, z.hash ≠ c.parentHash) →
          (⟨3, 1, 1, "k", 50⟩ : CallsiteInfo).parentHash = c.parentHash) ∧
        (mapGet (finalMergedMap exampleRedirectedChild 10) c.parentHash = none →
          (⟨3, 1, 1, "k", 50⟩ : CallsiteInfo).parentHash = c.parentHash)) :=
  ⟨by decide,
    mergeCallsites_parent_resolution exampleRedirectedChild 10 _ (by decide)⟩

theorem mapHas_eq_of_mapGet_eq {m₁ m₂ : MergedMap} {p : Int}
    (h : mapGet m₁ p = mapGet m₂ p) : mapHas m₁ p = mapHas m₂ p := by
  rw [mapHas, mapHas, h]

/-- With unique hashes, the output survivors are exactly the input records
whose hash never becomes a key of the final redirect map, in input
order. -/
theorem mergeLoop_output_hashes (rest : List CallsiteInfo) (m : MergedMap)
    (minSize : Int) (huq : UniqueHashes rest) :
    (mergeLoop m minSize rest).1.map CallsiteInfo.hash =
      (rest.filter
        (fun c => !(mapHas (mergeLoop m minSize rest).2 c.hash))).map
        CallsiteInfo.hash := by
  induction rest generalizing m with
  | nil => rfl
  | cons c0 tail ih =>
    have hnotail : ∀ x ∈ tail, x.hash ≠ c0.hash :=
      fun x hx heq => (List.pairwise_cons.mp huq).1 x hx heq.symm
    cases hskip : mapHas m c0.hash with
    | true =>
      rw [mergeLoop_cons_skip hskip]
      have hfin : mapHas (mergeLoop m minSize tail).2 c0.hash = true :=
        mergeLoop_has_mono tail m minSize hskip
      rw [List.filter_cons, hfin]
      simp only [Bool.not_true, Bool.false_eq_true, if_false]
      exact ih m (uniqueHashes_tail huq)
    | false =>
      by_cases hsmall : c0.totalSize ≤ minSize
      · rw [mergeLoop_cons_small hskip hsmall]
        have hstab : mapGet (mergeLoop
            (mergeScan (copiedOf c0 m) m minSize tail).2 minSize tail).2
            c0.hash = mapGet m c0.hash := by
          rw [mergeLoop_get_stable tail _ minSize
            (fun x hx => hnotail x (List.mem_of_mem_tail hx)),
            mergeScan_mapGet_stable_of_not_hash _ _ _ _ hnotail]
        have hfin : mapHas (mergeLoop
            (mergeScan (copiedOf c0 m) m minSize tail).2 minSize tail).2
            c0.hash = false := by
          rw [mapHas_eq_of_mapGet_eq hstab]
          exact hskip
        rw [List.filter_cons, hfin]
        simp only [Bool.not_false, if_true, List.map_cons]
        rw [ih _ (uniqueHashes_tail huq)]
        congr 1
        rw [(mergeScan_fields (copiedOf c0 m) m minSize tail).1, copiedOf_hash]
      · rw [mergeLoop_cons_big hskip hsmall]
        have hstab : mapGet (mergeLoop m minSize tail).2 c0.hash =
            mapGet m c0.hash :=
          mergeLoop_get_stable tail m minSize
            (fun x hx => hnotail x (List.mem_of_mem_tail hx))
        have hfin : mapHas (mergeLoop m minSize tail).2 c0.hash = false := by
          rw [mapHas_eq_of_mapGet_eq hstab]
          exact hskip
        rw [List.filter_cons, hfin]
        simp only [Bool.not_false, if_true, List.map_cons]
        rw [ih m (uniqueHashes_tail huq)]
        rfl

/-- C6 (amended): with unique hashes, the output of `mergeCallsites`
consists of exactly one record per input record whose hash never enters
the redirect map as a key, in input order; redirected records are never
emitted. -/
theorem mergeCallsites_survivors (data : List CallsiteInfo) (minSize : Int)
    (huq : UniqueHashes data) :
    (mergeCallsites data minSize).map CallsiteInfo.hash =
      (data.filter
        (fun c => !(mapHas (finalMergedMap data minSize) c.hash))).map
        CallsiteInfo.hash :=
  mergeLoop_output_hashes data [] minSize huq

/-- C6 (counterexample to the claim as stated): with a duplicate hash, the
already-emitted record's hash later enters the redirect map, so the
emitted survivors do not match the never-redirected records. -/
theorem mergeCallsites_survivors_cex :
    (mergeCallsites exampleDuplicateHashes 1).map CallsiteInfo.hash ≠
      (exampleDuplicateHashes.filter
        (fun c => !(mapHas (finalMergedMap exampleDuplicateHashes 1) c.hash))).map
        CallsiteInfo.hash := by
  decide

/-- C6 witness: the amended theorem applied to the two-level example. -/
theorem mergeCallsites_survivors_witness :
    UniqueHashes exampleTwoLevel ∧
    (mergeCallsites exampleTwoLevel 10).map CallsiteInfo.hash =
      (exampleTwoLevel.filter
        (fun c => !(mapHas (finalMergedMap exampleTwoLevel 10) c.hash))).map
        CallsiteInfo.hash :=
  ⟨by decide, mergeCallsites_survivors exampleTwoLevel 10 (by decide)⟩

/-- The index-level inner loop agrees with the structural scan: the
candidate fetched once the index has run past the end of the array is
discarded by the `j < data.length` guard before its `depth` is consulted,
so the error branch is unreachable. -/
theorem mergeScanIdx_eq (data : List CallsiteInfo) (minSize : Int) :
    ∀ fuel j copied m, data.length - j ≤ fuel →
      mergeScanIdx data minSize copied m j (data.get? j) =
        some (mergeScan copied m minSize (data.drop j)) := by
  intro fuel
  induction fuel with
  | zero =>
    intro j copied m hle
    have hj : ¬ j < data.length := by omega
    rw [mergeScanIdx.eq_def, dif_neg hj,
      List.drop_eq_nil_of_le (by omega), mergeScan_nil]
  | succ fuel ihf =>
    intro j copied m hle
    by_cases hj : j < data.length
    · rw [List.get?_eq_get hj, mergeScanIdx.eq_def, dif_pos hj]
      dsimp only
      rw [List.drop_eq_getElem_cons hj]
      show _ = some (mergeScan copied m minSize
        (data.get ⟨j, hj⟩ :: data.drop (j + 1)))
      rw [mergeScan_cons]
      by_cases hd : copied.depth = (data.get ⟨j, hj⟩).depth
      · rw [if_pos hd, if_pos hd]
        by_cases hc : copied.parentHash =
            getCallsitesParentHash (data.get ⟨j, hj⟩) m ∧
            (data.get ⟨j, hj⟩).totalSize ≤ minSize
        · rw [if_pos hc, if_pos hc]
          rw [← ihf (j + 1) _ _ (by omega)]
        · rw [if_neg hc, if_neg hc]
          rw [← ihf (j + 1) _ _ (by omega)]
      · rw [if_neg hd, if_neg hd]
    · rw [mergeScanIdx.eq_def, dif_neg hj, List.drop_eq_nil_of_le (by omega),
        mergeScan_nil]

theorem mergeCallsitesIdxAux_cons (data : List CallsiteInfo) (minSize : Int)
    (m : MergedMap) (i : Nat) (hi : i < data.length) :
    mergeCallsitesIdxAux data minSize m i =
      if mapHas m (data.get ⟨i, hi⟩).hash then
        mergeCallsitesIdxAux data minSize m (i + 1)
      else
        if (copiedOf (data.get ⟨i, hi⟩) m).totalSize ≤ minSize ∧
            i + 1 < data.length then
          match mergeScanIdx data minSize (copiedOf (data.get ⟨i, hi⟩) m) m
              (i + 1) (data.get? (i + 1)) with
          | none => none
          | some (copied1, m1) =>
            (mergeCallsitesIdxAux data minSize m1 (i + 1)).map (copied1 :: ·)
        else
          (mergeCallsitesIdxAux data minSize m (i + 1)).map
            (copiedOf (data.get ⟨i, hi⟩) m :: ·) := by
  rw [mergeCallsitesIdxAux.eq_def, dif_pos hi]
  rfl

theorem mergeCallsitesIdxAux_past (data : List CallsiteInfo) (minSize : Int)
    (m : MergedMap) (i : Nat) (hi : ¬ i < data.length) :
    mergeCallsitesIdxAux data minSize m i = some [] := by
  rw [mergeCallsitesIdxAux.eq_def, dif_neg hi]

/-- The index-level outer loop agrees with the structural loop. -/
theorem mergeCallsitesIdxAux_eq (data : List CallsiteInfo) (minSize : Int) :
    ∀ fuel i m, data.length - i ≤ fuel →
      mergeCallsitesIdxAux data minSize m i =
        some (mergeLoop m minSize (data.drop i)).1 := by
  intro fuel
  induction fuel with
  | zero =>
    intro i m hle
    rw [mergeCallsitesIdxAux_past data minSize m i (by omega),
      List.drop_eq_nil_of_le (by omega), mergeLoop_nil]
  | succ fuel ihf =>
    intro i m hle
    by_cases hi : i < data.length
    · rw [mergeCallsitesIdxAux_cons data minSize m i hi,
        List.drop_eq_getElem_cons hi]
      show _ = some (mergeLoop m minSize
        (data.get ⟨i, hi⟩ :: data.drop (i + 1))).1
      cases hskip : mapHas m (data.get ⟨i, hi⟩).hash with
      | true =>
        rw [if_pos rfl, mergeLoop_cons_skip hskip]
        exact ihf (i + 1) m (by omega)
      | false =>
        rw [if_neg (by simp [hskip])]
        by_cases hsm : (data.get ⟨i, hi⟩).totalSize ≤ minSize
        · by_cases hlen : i + 1 < data.length
          · rw [if_pos ⟨hsm, hlen⟩,
              mergeScanIdx_eq data minSize data.length (i + 1) _ _ (by omega)]
            have hpair : mergeScan (copiedOf (data.get ⟨i, hi⟩) m) m minSize
                (data.drop (i + 1)) =
                ((mergeScan (copiedOf (data.get ⟨i, hi⟩) m) m minSize
                  (data.drop (i + 1))).1,
                 (mergeScan (copiedOf (data.get ⟨i, hi⟩) m) m minSize
                  (data.drop (i + 1))).2) := rfl
            rw [hpair]
            show (mergeCallsitesIdxAux data minSize
                (mergeScan (copiedOf (data.get ⟨i, hi⟩) m) m minSize
                  (data.drop (i + 1))).2 (i + 1)).map
                ((mergeScan (copiedOf (data.get ⟨i, hi⟩) m) m minSize
                  (data.drop (i + 1))).1 :: ·) = _
            rw [mergeLoop_cons_small hskip hsm, ihf (i + 1) _ (by omega)]
            rfl
          · rw [if_neg (fun hc => hlen hc.2)]
            have hdrop : data.drop (i + 1) = [] :=
              List.drop_eq_nil_of_le (by omega)
            rw [mergeLoop_cons_small hskip hsm, hdrop, mergeScan_nil,
              ihf (i + 1) m (by omega), hdrop]
            rfl
        · rw [if_neg (fun hc => hsm hc.1), mergeLoop_cons_big hskip hsm,
            ihf (i + 1) m (by omega)]
          rfl
    · rw [mergeCallsitesIdxAux_past data minSize m i hi,
        List.drop_eq_nil_of_le (by omega), mergeLoop_nil]

/-- C8: the faithful index-level rendering of `mergeCallsites` — where the
inner scan peeks `data[j]` after `j++` and an actually consulted
out-of-range record would surface as `none` — always returns normally,
with the same result as the structural function: the out-of-range peek at
`j = data.length` is never consulted, and no error branch is
reachable. -/
theorem mergeCallsitesIdx_eq_mergeCallsites (data : List CallsiteInfo)
    (minSize : Int) :
    mergeCallsitesIdx data minSize = some (mergeCallsites data minSize) := by
  rw [mergeCallsitesIdx, mergeCallsites,
    mergeCallsitesIdxAux_eq data minSize data.length 0 [] (by omega)]
  rfl

theorem mapGet_eq_none_of_has_false {m : MergedMap} {p : Int}
    (h : mapHas m p = false) : mapGet m p = none := by
  cases hg : mapGet m p with
  | none => rfl
  | some v => rw [mapHas, hg] at h; cases h

/-- In a depth-sorted list, everything before a member is at most as
deep. -/
theorem sorted_before_le {l pre suf : List CallsiteInfo} {v : CallsiteInfo}
    (h : SortedByDepth l) (hdec : l = pre ++ v :: suf) :
    ∀ x ∈ pre, x.depth ≤ v.depth := by
  rw [SortedByDepth, hdec, List.pairwise_append] at h
  exact fun x hx => h.2.2 x hx v (by simp)

/-- In a depth-sorted list, everything after the head is at least as
deep. -/
theorem sorted_head_le {c : CallsiteInfo} {tail : List CallsiteInfo}
    (h : SortedByDepth (c :: tail)) : ∀ x ∈ tail, c.depth ≤ x.depth :=
  (List.pairwise_cons.mp h).1

/-- In a depth-sorted list headed by `c`, everything before a member of
the tail that has `c`'s depth also has `c`'s depth. -/
theorem sorted_window {c : CallsiteInfo} {tail pre suf : List CallsiteInfo}
    {v : CallsiteInfo} (hsrt : SortedByDepth (c :: tail))
    (hdec : tail = pre ++ v :: suf) (hvd : v.depth = c.depth) :
    ∀ l ∈ pre, l.depth = c.depth := by
  intro l hl
  have h1 : c.depth ≤ l.depth :=
    sorted_head_le hsrt l (by rw [hdec]; exact List.mem_append_left _ hl)
  have h2 : l.depth ≤ v.depth :=
    sorted_before_le (sortedByDepth_tail hsrt) hdec l hl
  omega

/-- Bindings present before the remaining run are never overridden: a
record already marked keeps its representative to the end. -/
theorem mergeLoop_get_stable_marked (rest : List CallsiteInfo) (m : MergedMap)
    (minSize : Int) (huq : UniqueHashes rest) (hsh : ParentsShallower rest)
    (hinv : MergeInv minSize m rest) (hvf : ValuesFresh m rest) :
    ∀ z ∈ rest, mapHas m z.hash = true →
      mapGet (mergeLoop m minSize rest).2 z.hash = mapGet m z.hash := by
  induction rest generalizing m with
  | nil => intro z hz; cases hz
  | cons c tail ih =>
    intro z hz hhz
    have hztails : z = c ∨ z ∈ tail := List.mem_cons.mp hz
    cases hskip : mapHas m c.hash with
    | true =>
      rw [mergeLoop_cons_skip hskip]
      rcases hztails with hzc | hzt
      · subst hzc
        exact mergeLoop_get_stable tail m minSize
          (fun x hx heq => (List.pairwise_cons.mp huq).1 x
            (List.mem_of_mem_tail hx) heq.symm)
      · exact ih m (uniqueHashes_tail huq) (parentsShallower_tail hsh)
          (mergeInv_tail hinv) (valuesFresh_tail hvf) z hzt hhz
    | false =>
      rcases hztails with hzc | hzt
      · subst hzc
        rw [hskip] at hhz
        cases hhz
      by_cases hsmall : c.totalSize ≤ minSize
      · rw [mergeLoop_cons_small hskip hsmall]
        have hs1 : mapGet (mergeScan (copiedOf c m) m minSize tail).2 z.hash =
            mapGet m z.hash :=
          scan_get_stable_marked huq hsh hinv hskip hsmall hzt hhz
        have hhz1 : mapHas (mergeScan (copiedOf c m) m minSize tail).2 z.hash =
            true := by
          rw [mapHas, hs1]
          exact hhz
        rw [ih _ (uniqueHashes_tail huq) (parentsShallower_tail hsh)
          (mergeInv_after_scan huq hsh hinv hskip hsmall)
          (valuesFresh_after_scan huq hvf) z hzt hhz1]
        exact hs1
      · rw [mergeLoop_cons_big hskip hsmall]
        exact ih m (uniqueHashes_tail huq) (parentsShallower_tail hsh)
          (mergeInv_tail hinv) (valuesFresh_tail hvf) z hzt hhz

/-- The parent hash of a record no deeper than anything in the remainder
resolves at the end of the run as it does now. -/
theorem run_parent_stable (rest : List CallsiteInfo) (m : MergedMap)
    (minSize : Int) (hsh : ParentsShallower rest) {y : CallsiteInfo}
    (hy : y ∈ rest) (hyd : ∀ z ∈ rest, y.depth ≤ z.depth) :
    resolveHash (mergeLoop m minSize rest).2 y.parentHash =
      resolveHash m y.parentHash := by
  refine resolveHash_eq_of_mapGet_eq (mergeLoop_get_stable rest m minSize ?_)
  intro z hz heq
  have h1 := hsh y hy z (List.mem_of_mem_tail hz) heq
  have h2 := hyd z (List.mem_of_mem_tail hz)
  omega

/-- Run-level threshold property: among the records the remaining loop
emits, no two of the same depth and same emitted parent hash are both
small. -/
theorem mergeLoop_pairwise_threshold (rest : List CallsiteInfo)
    (m : MergedMap) (minSize : Int) (hsrt : SortedByDepth rest)
    (huq : UniqueHashes rest) (hsh : ParentsShallower rest)
    (hinv : MergeInv minSize m rest) (hvf : ValuesFresh m rest) :
    (mergeLoop m minSize rest).1.Pairwise (fun u v =>
      u.depth = v.depth → u.parentHash = v.parentHash →
      minSize < u.totalSize ∨ minSize < v.totalSize) := by
  induction rest generalizing m with
  | nil => exact List.Pairwise.nil
  | cons c tail ih =>
    cases hskip : mapHas m c.hash with
    | true =>
      rw [mergeLoop_cons_skip hskip]
      exact ih m (sortedByDepth_tail hsrt) (uniqueHashes_tail huq)
        (parentsShallower_tail hsh) (mergeInv_tail hinv) (valuesFresh_tail hvf)
    | false =>
      by_cases hsmall : c.totalSize ≤ minSize
      · rw [mergeLoop_cons_small hskip hsmall]
        refine List.pairwise_cons.mpr ⟨?_, ?_⟩
        · intro o ho hdep hpar
          by_contra hcon
          rw [not_or, not_lt, not_lt] at hcon
          obtain ⟨hle0, hleo⟩ := hcon
          obtain ⟨pre, v, suf, hdec, hoh, hod, hon, mc, hop, hmc, hos,
            ⟨ext2, he2, -⟩, -, hwin⟩ :=
            mergeLoop_output_origin tail
              (mergeScan (copiedOf c m) m minSize tail).2 minSize
              (parentsShallower_tail hsh) o ho
          have hvtail : v ∈ tail := by simp [hdec]
          have hvd : v.depth = c.depth := by
            have h0 : (mergeScan (copiedOf c m) m minSize tail).1.depth =
                c.depth := by
              rw [(mergeScan_fields (copiedOf c m) m minSize tail).2.2.1,
                copiedOf_depth]
            rw [← hod, ← hdep, h0]
          have hwindep : ∀ l ∈ pre, l.depth = v.depth := by
            intro l hl
            rw [hvd]
            exact sorted_window hsrt hdec hvd l hl
          have hvsmall : v.totalSize ≤ minSize := hos hleo
          have hopar : o.parentHash =
              resolveHash (mergeScan (copiedOf c m) m minSize tail).2
                v.parentHash := by
            rw [hop, hwin hwindep]
          have hoparm : o.parentHash = resolveHash m v.parentHash := by
            rw [hopar, scan_parent_stable minSize hsh hvtail hvd]
          have hcpar : (mergeScan (copiedOf c m) m minSize tail).1.parentHash =
              resolveHash m c.parentHash := by
            rw [(mergeScan_fields (copiedOf c m) m minSize tail).2.1,
              copiedOf_parentHash]
          have hvres : resolveHash m v.parentHash =
              (copiedOf c m).parentHash := by
            rw [copiedOf_parentHash, ← hcpar, hpar, hoparm]
          have hmarked := mergeScan_marks_window (copiedOf c m) m minSize tail
            (parentsShallower_tail hsh) pre v suf hdec
            (fun l hl => sorted_window hsrt hdec hvd l hl)
            (by rw [hvd]; rfl) hvsmall hvres
          have hnot : mapHas (mergeScan (copiedOf c m) m minSize tail).2
              v.hash = false := by
            have : mapHas mc v.hash = false := hmc
            rw [he2, mapHas_append] at this
            rcases Bool.or_eq_false_iff.mp this with ⟨-, h2⟩
            exact h2
          rw [hmarked] at hnot
          cases hnot
        · exact ih _ (sortedByDepth_tail hsrt) (uniqueHashes_tail huq)
            (parentsShallower_tail hsh)
            (mergeInv_after_scan huq hsh hinv hskip hsmall)
            (valuesFresh_after_scan huq hvf)
      · rw [mergeLoop_cons_big hskip hsmall]
        refine List.pairwise_cons.mpr ⟨?_, ?_⟩
        · intro o ho hdep hpar
          left
          rw [copiedOf_totalSize]
          omega
        · exact ih m (sortedByDepth_tail hsrt) (uniqueHashes_tail huq)
            (parentsShallower_tail hsh) (mergeInv_tail hinv)
            (valuesFresh_tail hvf)

/-- C3 (amended): under the sort precondition, unique hashes, strictly
shallower parent references and a non-negative threshold, every output
record either exceeds the threshold or is the only output record of its
(depth, emitted parent hash) group with `totalSize ≤ minSize`: no two
same-group output records are both small. -/
theorem mergeCallsites_threshold (data : List CallsiteInfo) (minSize : Int)
    (hsrt : SortedByDepth data) (huq : UniqueHashes data)
    (hsh : ParentsShallower data) (_hmin : 0 ≤ minSize) :
    (mergeCallsites data minSize).Pairwise (fun u v =>
      u.depth = v.depth → u.parentHash = v.parentHash →
      minSize < u.totalSize ∨ minSize < v.totalSize) :=
  mergeLoop_pairwise_threshold data [] minSize hsrt huq hsh
    (mergeInv_empty minSize data) (valuesFresh_empty data)

/-- C3 (counterexample to the claim as stated): on the Scenario 2 input
`[5, 1, 1]` with `minSize = 2`, the merged output record of size `2` does
not exceed the threshold and yet is not the sole remaining record of its
(depth, effective-parent) group in the output — the size-5 record shares
the group. -/
theorem mergeCallsites_threshold_cex :
    SortedByDepth exampleSiblingsWithBig ∧
    UniqueHashes exampleSiblingsWithBig ∧
    ParentsShallower exampleSiblingsWithBig ∧ (0 : Int) ≤ 2 ∧
    ∃ o ∈ mergeCallsites exampleSiblingsWithBig 2, ¬(2 < o.totalSize) ∧
      ∃ p ∈ mergeCallsites exampleSiblingsWithBig 2, p ≠ o ∧
        p.depth = o.depth ∧ p.parentHash = o.parentHash := by
  decide

/-- C3 witness: the amended theorem applied to the Scenario 2 input. -/
theorem mergeCallsites_threshold_witness :
    SortedByDepth exampleSiblingsWithBig ∧
    UniqueHashes exampleSiblingsWithBig ∧
    ParentsShallower exampleSiblingsWithBig ∧ (0 : Int) ≤ 2 ∧
    (mergeCallsites exampleSiblingsWithBig 2).Pairwise (fun u v =>
      u.depth = v.depth → u.parentHash = v.parentHash →
      2 < u.totalSize ∨ 2 < v.totalSize) :=
  ⟨by decide, by decide, by decide, by decide,
    mergeCallsites_threshold exampleSiblingsWithBig 2 (by decide) (by decide)
      (by decide) (by decide)⟩

theorem mapGet_append_cases {m₁ m₂ : MergedMap} {p v : Int}
    (h : mapGet (m₁ ++ m₂) p = some v) :
    mapGet m₁ p = some v ∨ (mapGet m₁ p = none ∧ mapGet m₂ p = some v) := by
  rw [mapGet_append] at h
  cases hg : mapGet m₁ p with
  | none =>
    rw [hg] at h
    exact Or.inr ⟨rfl, h⟩
  | some u =>
    rw [hg] at h
    exact Or.inl h

/-- Every record marked during the remaining run points at a
representative of its own class: an emitted record of equal depth, itself
small and never marked, whose parent hash resolves (at the end of the
run) as the marked record's does. -/
theorem mergeLoop_marked_rep (rest : List CallsiteInfo) (m : MergedMap)
    (minSize : Int) (hsrt : SortedByDepth rest) (huq : UniqueHashes rest)
    (hsh : ParentsShallower rest) (hinv : MergeInv minSize m rest)
    (hvf : ValuesFresh m rest) :
    ∀ x ∈ rest, mapGet m x.hash = none →
      ∀ v, mapGet (mergeLoop m minSize rest).2 x.hash = some v →
      ∃ r ∈ rest, r.hash = v ∧
        mapGet (mergeLoop m minSize rest).2 r.hash = none ∧
        r.totalSize ≤ minSize ∧ r.depth = x.depth ∧ x.totalSize ≤ minSize ∧
        resolveHash (mergeLoop m minSize rest).2 x.parentHash =
          resolveHash (mergeLoop m minSize rest).2 r.parentHash := by
  induction rest generalizing m with
  | nil => intro x hx; cases hx
  | cons c tail ih =>
    intro x hx hnone v hsome
    have hxtails : x = c ∨ x ∈ tail := List.mem_cons.mp hx
    have hcnot : ∀ z ∈ tail, z.hash ≠ c.hash :=
      fun z hz heq => (List.pairwise_cons.mp huq).1 z hz heq.symm
    cases hskip : mapHas m c.hash with
    | true =>
      rw [mergeLoop_cons_skip hskip] at hsome ⊢
      rcases hxtails with hxc | hxt
      · rw [hxc] at hnone
        simp [mapHas, hnone] at hskip
      · obtain ⟨r, hr, hconc⟩ := ih m (sortedByDepth_tail hsrt)
          (uniqueHashes_tail huq) (parentsShallower_tail hsh)
          (mergeInv_tail hinv) (valuesFresh_tail hvf) x hxt hnone v hsome
        exact ⟨r, by simp [hr], hconc⟩
    | false =>
      by_cases hsmall : c.totalSize ≤ minSize
      · rw [mergeLoop_cons_small hskip hsmall] at hsome ⊢
        have hcfin : mapGet (mergeLoop
            (mergeScan (copiedOf c m) m minSize tail).2 minSize tail).2
            c.hash = none := by
          rw [mergeLoop_get_stable tail _ minSize
            (fun z hz => hcnot z (List.mem_of_mem_tail hz)),
            mergeScan_mapGet_stable_of_not_hash _ _ _ _ hcnot]
          exact mapGet_eq_none_of_has_false hskip
        rcases hxtails with hxc | hxt
        · rw [hxc, hcfin] at hsome
          cases hsome
        · cases hm1 : mapGet (mergeScan (copiedOf c m) m minSize tail).2
              x.hash with
          | none =>
            obtain ⟨r, hr, hconc⟩ := ih _ (sortedByDepth_tail hsrt)
              (uniqueHashes_tail huq) (parentsShallower_tail hsh)
              (mergeInv_after_scan huq hsh hinv hskip hsmall)
              (valuesFresh_after_scan huq hvf) x hxt hm1 v hsome
            exact ⟨r, by simp [hr], hconc⟩
          | some w =>
            -- `x` was marked by this very scan, into `c`.
            obtain ⟨ext, hext, hdesc⟩ :=
              mergeScan_map_ext (copiedOf c m) m minSize tail
                (parentsShallower_tail hsh)
            have hextw : mapGet ext x.hash = some w := by
              rw [hext] at hm1
              rcases mapGet_append_cases hm1 with h | ⟨-, h⟩
              · exact h
              · rw [hnone] at h
                cases h
            obtain ⟨hval, pre2, x2, suf2, hdec2, hxh2, hx2d, hx2s, hx2r, -⟩ :=
              hdesc (x.hash, w) (mapGet_mem hextw)
            have hx2x : x2 = x := uniqueElem (uniqueHashes_tail huq)
              (by simp [hdec2]) hxt hxh2
            rw [hx2x] at hx2d hx2s hx2r
            have hxd : x.depth = c.depth := hx2d
            have hstab : mapGet (mergeLoop
                (mergeScan (copiedOf c m) m minSize tail).2 minSize tail).2
                x.hash = some w :=
              (mergeLoop_get_stable_marked tail _ minSize
                (uniqueHashes_tail huq) (parentsShallower_tail hsh)
                (mergeInv_after_scan huq hsh hinv hskip hsmall)
                (valuesFresh_after_scan huq hvf) x hxt
                (mapHas_of_mapGet_some hm1)).trans hm1
            have hvw : v = w := by
              rw [hstab] at hsome
              exact (Option.some.injEq _ _).mp hsome.symm
            have hwc : w = c.hash := hval
            refine ⟨c, by simp, by rw [hwc] at hvw; exact hvw.symm, hcfin,
              hsmall, hxd.symm, hx2s, ?_⟩
            have hxstab : resolveHash (mergeLoop
                (mergeScan (copiedOf c m) m minSize tail).2 minSize tail).2
                x.parentHash = resolveHash m x.parentHash := by
              rw [run_parent_stable tail _ minSize (parentsShallower_tail hsh)
                hxt ?_, scan_parent_stable minSize hsh hxt hxd]
              intro z hz
              rw [hxd]
              exact sorted_head_le hsrt z hz
            have hcstab : resolveHash (mergeLoop
                (mergeScan (copiedOf c m) m minSize tail).2 minSize tail).2
                c.parentHash = resolveHash m c.parentHash := by
              refine resolveHash_eq_of_mapGet_eq ?_
              have hp : ∀ z ∈ tail, z.hash ≠ c.parentHash := by
                intro z hz heq
                have h1 := hsh c (by simp) z (by simp [hz]) heq
                have h2 := sorted_head_le hsrt z hz
                omega
              rw [mergeLoop_get_stable tail _ minSize
                (fun z hz => hp z (List.mem_of_mem_tail hz)),
                mergeScan_mapGet_stable_of_not_hash _ _ _ _ hp]
            rw [hxstab, hcstab, hx2r, copiedOf_parentHash]
      · rw [mergeLoop_cons_big hskip hsmall] at hsome ⊢
        rcases hxtails with hxc | hxt
        · have : mapGet (mergeLoop m minSize tail).2 x.hash = none := by
            rw [hxc, mergeLoop_get_stable tail m minSize
              (fun z hz => hcnot z (List.mem_of_mem_tail hz))]
            rw [hxc] at hnone
            exact hnone
          rw [this] at hsome
          cases hsome
        · obtain ⟨r, hr, hconc⟩ := ih m (sortedByDepth_tail hsrt)
            (uniqueHashes_tail huq) (parentsShallower_tail hsh)
            (mergeInv_tail hinv) (valuesFresh_tail hvf) x hxt hnone v hsome
          exact ⟨r, by simp [hr], hconc⟩

/-- Two small records of equal depth whose parent hashes resolve equally
at the end of the run are folded to the same representative. -/
theorem mergeLoop_same_class_same_rep (rest : List CallsiteInfo)
    (m : MergedMap) (minSize : Int) (hsrt : SortedByDepth rest)
    (huq : UniqueHashes rest) (hsh : ParentsShallower rest)
    (hinv : MergeInv minSize m rest) (hscr : SameClassSameRep m rest)
    (hvf : ValuesFresh m rest) :
    ∀ pre x mid y suf, rest = pre ++ x :: mid ++ y :: suf →
      x.depth = y.depth → x.totalSize ≤ minSize → y.totalSize ≤ minSize →
      resolveHash (mergeLoop m minSize rest).2 x.parentHash =
        resolveHash (mergeLoop m minSize rest).2 y.parentHash →
      resolveHash (mergeLoop m minSize rest).2 x.hash =
        resolveHash (mergeLoop m minSize rest).2 y.hash := by
  induction rest generalizing m with
  | nil =>
    intro pre x mid y suf hdec
    cases pre <;> simp at hdec
  | cons c tail ih =>
    intro pre x mid y suf hdec hdxy hxs hys hrxy
    cases pre with
    | cons a pre =>
      simp only [List.cons_append, List.cons.injEq] at hdec
      obtain ⟨-, hdec⟩ := hdec
      cases hskip : mapHas m c.hash with
      | true =>
        rw [mergeLoop_cons_skip hskip] at hrxy ⊢
        exact ih m (sortedByDepth_tail hsrt) (uniqueHashes_tail huq)
          (parentsShallower_tail hsh) (mergeInv_tail hinv)
          (sameClassSameRep_tail hscr) (valuesFresh_tail hvf)
          pre x mid y suf hdec hdxy hxs hys hrxy
      | false =>
        by_cases hsmall : c.totalSize ≤ minSize
        · rw [mergeLoop_cons_small hskip hsmall] at hrxy ⊢
          exact ih _ (sortedByDepth_tail hsrt) (uniqueHashes_tail huq)
            (parentsShallower_tail hsh)
            (mergeInv_after_scan huq hsh hinv hskip hsmall)
            (sameClassSameRep_after_scan huq hsh hinv hscr hskip hsmall)
            (valuesFresh_after_scan huq hvf)
            pre x mid y suf hdec hdxy hxs hys hrxy
        · rw [mergeLoop_cons_big hskip hsmall] at hrxy ⊢
          exact ih m (sortedByDepth_tail hsrt) (uniqueHashes_tail huq)
            (parentsShallower_tail hsh) (mergeInv_tail hinv)
            (sameClassSameRep_tail hscr) (valuesFresh_tail hvf)
            pre x mid y suf hdec hdxy hxs hys hrxy
    | nil =>
      simp only [List.nil_append, List.cons_append, List.cons.injEq] at hdec
      obtain ⟨hxc, hdec⟩ := hdec
      subst hxc
      have hytail : y ∈ tail := by
        rw [hdec]
        simp
      have hyd : ∀ z ∈ c :: tail, y.depth ≤ z.depth := by
        intro z hz
        rw [← hdxy]
        rcases List.mem_cons.mp hz with hz | hz
        · rw [hz]
        · exact sorted_head_le hsrt z hz
      have hcd : ∀ z ∈ c :: tail, c.depth ≤ z.depth := by
        intro z hz
        rcases List.mem_cons.mp hz with hz | hz
        · rw [hz]
        · exact sorted_head_le hsrt z hz
      have hPx : resolveHash (mergeLoop m minSize (c :: tail)).2 c.parentHash =
          resolveHash m c.parentHash :=
        run_parent_stable (c :: tail) m minSize hsh (by simp) hcd
      have hPy : resolveHash (mergeLoop m minSize (c :: tail)).2 y.parentHash =
          resolveHash m y.parentHash :=
        run_parent_stable (c :: tail) m minSize hsh (by simp [hytail]) hyd
      have hrm : resolveHash m c.parentHash = resolveHash m y.parentHash := by
        rw [← hPx, ← hPy]
        exact hrxy
      have hwinmid : ∀ l ∈ mid, l.depth = c.depth := by
        intro l hl
        have h1 : c.depth ≤ l.depth := sorted_head_le hsrt l
          (by rw [hdec]; exact List.mem_append_left _ hl)
        have h2 : l.depth ≤ y.depth :=
          sorted_before_le (sortedByDepth_tail hsrt) hdec l hl
        omega
      cases hhx : mapHas m c.hash with
      | true =>
        cases hhy : mapHas m y.hash with
        | true =>
          have hg : mapGet m c.hash = mapGet m y.hash :=
            hscr c (by simp) y (by simp [hytail]) hhx hhy hdxy hrm
          have hsx := mergeLoop_get_stable_marked (c :: tail) m minSize
            huq hsh hinv hvf c (by simp) hhx
          have hsy := mergeLoop_get_stable_marked (c :: tail) m minSize
            huq hsh hinv hvf y (by simp [hytail]) hhy
          obtain ⟨v, hv⟩ := mapHas_iff.mp hhx
          have hv2 : mapGet m y.hash = some v := by
            rw [← hg]
            exact hv
          rw [resolveHash, resolveHash, hsx, hsy, hv, hv2]
        | false =>
          obtain ⟨-, -, -, h4⟩ := hinv [] c (mid ++ y :: suf)
            (by rw [hdec]; rfl) hhx
          have := h4 mid y suf rfl hwinmid hdxy.symm hys (hrm.symm)
          rw [hhy] at this
          cases this
      | false =>
        cases hhy : mapHas m y.hash with
        | true =>
          obtain ⟨-, -, h3, -⟩ := hinv (c :: mid) y suf
            (by rw [hdec]; rfl) hhy
          have := h3 c (by simp) hxs hrm
          rw [hhx] at this
          cases this
        | false =>
          rw [mergeLoop_cons_small hhx hxs] at hrxy ⊢
          have hcnot : ∀ z ∈ tail, z.hash ≠ c.hash :=
            fun z hz heq => (List.pairwise_cons.mp huq).1 z hz heq.symm
          have hyget : mapGet (mergeScan (copiedOf c m) m minSize tail).2
              y.hash = some (copiedOf c m).hash :=
            mergeScan_marks_window_get (copiedOf c m) m minSize tail
              (parentsShallower_tail hsh) (uniqueHashes_tail huq)
              mid y suf hdec (fun l hl => hwinmid l hl)
              hdxy.symm hys (by rw [copiedOf_parentHash]; exact hrm.symm)
          have hyfin : mapGet (mergeLoop
              (mergeScan (copiedOf c m) m minSize tail).2 minSize tail).2
              y.hash = some c.hash := by
            rw [mergeLoop_get_stable_marked tail _ minSize
              (uniqueHashes_tail huq) (parentsShallower_tail hsh)
              (mergeInv_after_scan huq hsh hinv hhx hxs)
              (valuesFresh_after_scan huq hvf) y hytail
              (mapHas_of_mapGet_some hyget), hyget, copiedOf_hash]
          have hxfin : mapGet (mergeLoop
              (mergeScan (copiedOf c m) m minSize tail).2 minSize tail).2
              c.hash = none := by
            rw [mergeLoop_get_stable tail _ minSize
              (fun z hz => hcnot z (List.mem_of_mem_tail hz)),
              mergeScan_mapGet_stable_of_not_hash _ _ _ _ hcnot]
            exact mapGet_eq_none_of_has_false hhx
          rw [resolveHash, resolveHash, hxfin, hyfin]

theorem mem_mem_decomp {l : List CallsiteInfo} {x y : CallsiteInfo}
    (hx : x ∈ l) (hy : y ∈ l) (hne : x ≠ y) :
    (∃ pre mid suf, l = pre ++ x :: mid ++ y :: suf) ∨
    (∃ pre mid suf, l = pre ++ y :: mid ++ x :: suf) := by
  induction l with
  | nil => cases hx
  | cons c tail ih =>
    rcases List.mem_cons.mp hx with hxc | hxt
    · have hyt : y ∈ tail := by
        rcases List.mem_cons.mp hy with hyc | hyt
        · exact absurd (hxc.trans hyc.symm) hne
        · exact hyt
      obtain ⟨mid, suf, hdec⟩ := List.append_of_mem hyt
      exact Or.inl ⟨[], mid, suf, by rw [hxc, hdec]; rfl⟩
    · rcases List.mem_cons.mp hy with hyc | hyt
      · obtain ⟨mid, suf, hdec⟩ := List.append_of_mem hxt
        exact Or.inr ⟨[], mid, suf, by rw [hyc, hdec]; rfl⟩
      · rcases ih hxt hyt with ⟨pre, mid, suf, hdec⟩ | ⟨pre, mid, suf, hdec⟩
        · exact Or.inl ⟨c :: pre, mid, suf, by rw [hdec]; rfl⟩
        · exact Or.inr ⟨c :: pre, mid, suf, by rw [hdec]; rfl⟩

/-- C2 (amended): under the sort precondition, unique hashes, and
strictly shallower parent references, two distinct input records end up
with the same output representative iff they have equal depth, equal
effective parent hash (resolved through the final redirect map), and both
have `totalSize ≤ minSizeDisplayed`. -/
theorem mergeCallsites_grouping (data : List CallsiteInfo) (minSize : Int)
    (hsrt : SortedByDepth data) (huq : UniqueHashes data)
    (hsh : ParentsShallower data) {x y : CallsiteInfo}
    (hx : x ∈ data) (hy : y ∈ data) (hne : x ≠ y) :
    repOf data minSize x = repOf data minSize y ↔
      (x.depth = y.depth ∧
        effParent data minSize x = effParent data minSize y ∧
        x.totalSize ≤ minSize ∧ y.totalSize ≤ minSize) := by
  constructor
  · intro h
    cases hgx : mapGet (finalMergedMap data minSize) x.hash with
    | none =>
      cases hgy : mapGet (finalMergedMap data minSize) y.hash with
      | none =>
        have h1 : repOf data minSize x = x.hash := by
          rw [repOf, resolveHash, hgx]
        have h2 : repOf data minSize y = y.hash := by
          rw [repOf, resolveHash, hgy]
        have hxy : x.hash = y.hash := by rw [← h1, ← h2, h]
        exact absurd (uniqueElem huq hx hy hxy) hne
      | some v =>
        obtain ⟨r, hr, hrh, -, hrs, hrd, hys2, heq⟩ :=
          mergeLoop_marked_rep data [] minSize hsrt huq hsh
            (mergeInv_empty minSize data) (valuesFresh_empty data)
            y hy rfl v hgy
        have h1 : repOf data minSize x = x.hash := by
          rw [repOf, resolveHash, hgx]
        have h2 : repOf data minSize y = v := by
          rw [repOf, resolveHash, hgy]
        have hvx : v = x.hash := by rw [← h2, ← h, h1]
        have hrx : r = x := uniqueElem huq hr hx (by rw [hrh, hvx])
        rw [hrx] at hrs hrd heq
        exact ⟨hrd, heq.symm, hrs, hys2⟩
    | some v =>
      obtain ⟨r, hr, hrh, -, hrs, hrd, hxs2, heq⟩ :=
        mergeLoop_marked_rep data [] minSize hsrt huq hsh
          (mergeInv_empty minSize data) (valuesFresh_empty data)
          x hx rfl v hgx
      cases hgy : mapGet (finalMergedMap data minSize) y.hash with
      | none =>
        have h1 : repOf data minSize x = v := by
          rw [repOf, resolveHash, hgx]
        have h2 : repOf data minSize y = y.hash := by
          rw [repOf, resolveHash, hgy]
        have hvy : v = y.hash := by rw [← h1, h, h2]
        have hry : r = y := uniqueElem huq hr hy (by rw [hrh, hvy])
        rw [hry] at hrs hrd heq
        exact ⟨hrd.symm, heq, hxs2, hrs⟩
      | some w =>
        obtain ⟨r2, hr2, hrh2, -, -, hrd2, hys2, heq2⟩ :=
          mergeLoop_marked_rep data [] minSize hsrt huq hsh
            (mergeInv_empty minSize data) (valuesFresh_empty data)
            y hy rfl w hgy
        have h1 : repOf data minSize x = v := by
          rw [repOf, resolveHash, hgx]
        have h2 : repOf data minSize y = w := by
          rw [repOf, resolveHash, hgy]
        have hvw : v = w := by rw [← h1, ← h2, h]
        have hrr : r = r2 := uniqueElem huq hr hr2 (by rw [hrh, hrh2, hvw])
        rw [hrr] at hrd heq
        exact ⟨by rw [← hrd, hrd2], heq.trans heq2.symm, hxs2, hys2⟩
  · rintro ⟨hdep, heff, hxs, hys⟩
    rcases mem_mem_decomp hx hy hne with ⟨pre, mid, suf, hdec⟩ |
      ⟨pre, mid, suf, hdec⟩
    · exact mergeLoop_same_class_same_rep data [] minSize hsrt huq hsh
        (mergeInv_empty minSize data) (sameClassSameRep_empty data)
        (valuesFresh_empty data) pre x mid y suf hdec hdep hxs hys heff
    · exact (mergeLoop_same_class_same_rep data [] minSize hsrt huq hsh
        (mergeInv_empty minSize data) (sameClassSameRep_empty data)
        (valuesFresh_empty data) pre y mid x suf hdec hdep.symm hys hxs
        heff.symm).symm

/-- C2 (counterexample to the claim as stated): an input satisfying the
sort precondition (all records depth 0, unique hashes) on which two
records (`a` and `b`) have equal depth, equal effective parent hash
through the final redirect map, and sizes below the threshold, yet end up
with different representatives — the claimed equivalence needs parent
references to strictly shallower records. -/
theorem mergeCallsites_grouping_cex :
    SortedByDepth exampleSameDepthParents ∧
    UniqueHashes exampleSameDepthParents ∧
    (⟨1, 50, 0, "a", 1⟩ : CallsiteInfo) ∈ exampleSameDepthParents ∧
    (⟨2, 7, 0, "b", 1⟩ : CallsiteInfo) ∈ exampleSameDepthParents ∧
    (⟨1, 50, 0, "a", 1⟩ : CallsiteInfo) ≠ ⟨2, 7, 0, "b", 1⟩ ∧
    (⟨1, 50, 0, "a", 1⟩ : CallsiteInfo).depth =
      (⟨2, 7, 0, "b", 1⟩ : CallsiteInfo).depth ∧
    effParent exampleSameDepthParents 10 ⟨1, 50, 0, "a", 1⟩ =
      effParent exampleSameDepthParents 10 ⟨2, 7, 0, "b", 1⟩ ∧
    (⟨1, 50, 0, "a", 1⟩ : CallsiteInfo).totalSize ≤ 10 ∧
    (⟨2, 7, 0, "b", 1⟩ : CallsiteInfo).totalSize ≤ 10 ∧
    repOf exampleSameDepthParents 10 ⟨1, 50, 0, "a", 1⟩ ≠
      repOf exampleSameDepthParents 10 ⟨2, 7, 0, "b", 1⟩ := by
  decide

/-- C2 witness: the amended equivalence applied to two records of
Scenario 1, which merge into one representative. -/
theorem mergeCallsites_grouping_witness :
    SortedByDepth exampleSiblings ∧ UniqueHashes exampleSiblings ∧
    ParentsShallower exampleSiblings ∧
    (⟨1, -1, 0, "a", 1⟩ : CallsiteInfo) ∈ exampleSiblings ∧
    (⟨2, -1, 0, "b", 1⟩ : CallsiteInfo) ∈ exampleSiblings ∧
    (⟨1, -1, 0, "a", 1⟩ : CallsiteInfo) ≠ ⟨2, -1, 0, "b", 1⟩ ∧
    (repOf exampleSiblings 2 ⟨1, -1, 0, "a", 1⟩ =
        repOf exampleSiblings 2 ⟨2, -1, 0, "b", 1⟩ ↔
      ((⟨1, -1, 0, "a", 1⟩ : CallsiteInfo).depth =
          (⟨2, -1, 0, "b", 1⟩ : CallsiteInfo).depth ∧
        effParent exampleSiblings 2 ⟨1, -1, 0, "a", 1⟩ =
          effParent exampleSiblings 2 ⟨2, -1, 0, "b", 1⟩ ∧
        (⟨1, -1, 0, "a", 1⟩ : CallsiteInfo).totalSize ≤ 2 ∧
        (⟨2, -1, 0, "b", 1⟩ : CallsiteInfo).totalSize ≤ 2)) :=
  ⟨by decide, by decide, by decide, by decide, by decide, by decide,
    mergeCallsites_grouping exampleSiblings 2 (by decide) (by decide)
      (by decide) (by decide) (by decide) (by decide)⟩
